import Mathlib

/-!
Verification of the conversation-forest engine of the `nested` repository.

The definitions below are shallow embeddings of the TypeScript source:
* `src/app/flow/types.ts` — message type, label generator, ancestry walk,
  cycle guard;
* `src/app/flow/page.tsx` — context aggregator (`getContextMessages`) and the
  layout effect;
* `src/app/flow/dagre-layout.ts` (given unnamed) — multi-tree layout engine;
* `src/app/builder/page.tsx` (given unnamed) and
  `src/hooks/useCanvasCollaboration.ts` — collaboration reconciler.

Machine integers/timestamps are modelled as `Nat`, canvas coordinates as
`Int`.  JavaScript `Map`s keyed by id are modelled as lists with first-match
lookup (the sources build these maps from DB rows with unique ids).  Loops
whose termination depends on data (visited-set-guarded walks, BFS queues) are
written with an explicit fuel parameter; every theorem that touches them is
proved either for all fuel values or at the fuel the embedding fixes, which is
large enough for the walk to run to completion on the inputs concerned.
-/

namespace Nested

/-- A conversation message (the canonical Node of the spec, §3): DB shape of
`page.tsx` (`parent_id`, `created_at`), with the timestamp already decoded to
a number as `getCreatedAt` does in `types.ts`. -/
structure Msg where
  id : String
  parent_id : Option String
  role : String
  content : String
  created_at : Nat
deriving DecidableEq, Repr

/-- `messagesById.get id`: the sources build the map by inserting every
message keyed by its id; ids are unique (DB primary keys), so first-match
lookup models `Map.get`. -/
def lookup (msgs : List Msg) (id : String) : Option Msg :=
  msgs.find? (fun m => m.id == id)

/-- One step up the tree: `current.parent_id ? messagesById.get(current.parent_id) : undefined`. -/
def parentStep (msgs : List Msg) (m : Msg) : Option Msg :=
  match m.parent_id with
  | none => none
  | some p => lookup msgs p

/-- The k-th node on the walk from `a` towards the root (`iterAnc 0` is `a`
itself, as looked up in the model).  This is the specification-level notion of
"the path from a node to its root". -/
def iterAnc (msgs : List Msg) (a : String) : Nat → Option Msg
  | 0 => lookup msgs a
  | k + 1 => (iterAnc msgs a k).bind (parentStep msgs)

/-- The visited-set-guarded ancestry walk shared by `getAncestry` in
`types.ts` and the inline ancestry loop of `getContextMessages` in
`page.tsx`:

    while (current && !visited.has(current.id)) {
      visited.add(current.id); chain.push(current);
      current = parentId ? messagesById.get(parentId) : undefined; }

Returns the chain in walk order (node first, root last) together with the
final visited set (which `getContextMessages` keeps threading). -/
def ancWalkAux (msgs : List Msg) :
    Nat → List String → Option Msg → List Msg × List String
  | 0, visited, _ => ([], visited)
  | _ + 1, visited, none => ([], visited)
  | fuel + 1, visited, some m =>
    if m.id ∈ visited then ([], visited)
    else
      let step := ancWalkAux msgs fuel (m.id :: visited) (parentStep msgs m)
      (m :: step.1, step.2)

/-- `getAncestry` of `types.ts` (chain reversed to root-first order). -/
def getAncestry (msgs : List Msg) (nodeId : String) : List Msg :=
  ((ancWalkAux msgs (msgs.length + 1) [] (lookup msgs nodeId)).1).reverse

/-- `wouldCreateCircle` of `types.ts`: `toId` appears in the ancestry chain of
`fromId`. -/
def wouldCreateCircle (msgs : List Msg) (fromId toId : String) : Bool :=
  (getAncestry msgs fromId).any (fun m => m.id == toId)

/-! ### Label generator (`generateShortLabels` of `types.ts`) -/

/-- The comparison `(a, b) => getCreatedAt(a) - getCreatedAt(b)` used to sort
sibling lists: ascending `created_at`. -/
def createdLe (a b : Msg) : Prop :=
  a.created_at ≤ b.created_at

instance : DecidableRel createdLe := fun _ _ => Nat.decLe _ _

instance : IsTotal Msg createdLe :=
  ⟨fun a b => Nat.le_total a.created_at b.created_at⟩

instance : IsTrans Msg createdLe :=
  ⟨fun _ _ _ h h2 => Nat.le_trans h h2⟩

/-- Children of a node, sorted by creation time, as id list:
`messages.filter((m) => getParentId(m) === nodeId)` followed by
`children.sort((a, b) => getCreatedAt(a) - getCreatedAt(b))`. -/
def childIdsOf (msgs : List Msg) (nodeId : String) : List String :=
  (((msgs.filter (fun m => m.parent_id == some nodeId))).insertionSort createdLe).map
    (fun m => m.id)

/-- The three derived maps of `generateShortLabels`, as association lists in
insertion (= visitation) order. -/
structure LabelsOut where
  labels : List (String × String)
  treeLabels : List (String × String)
  treeIndices : List (String × Nat)
deriving DecidableEq, Repr

/-- `String.fromCharCode(65 + (treeIndex % 26))`. -/
def letterOf (treeIndex : Nat) : String :=
  String.mk [Char.ofNat (65 + treeIndex % 26)]

/-- The BFS of `generateShortLabels` over one tree: pop an id, skip if
visited, otherwise record `letter ++ nodeIndex` and enqueue the node's
children sorted by `created_at`.  The children are supplied as a function so
that the walk depends on the message list only through it. -/
def bfsLabel (childIds : String → List String) (letter : String) (treeIndex : Nat) :
    Nat → List String → List String → Nat → LabelsOut → LabelsOut
  | 0, _, _, _, out => out
  | _ + 1, [], _, _, out => out
  | fuel + 1, id :: queue, visited, nodeIndex, out =>
    if id ∈ visited then bfsLabel childIds letter treeIndex fuel queue visited nodeIndex out
    else
      bfsLabel childIds letter treeIndex fuel (queue ++ childIds id) (id :: visited)
        (nodeIndex + 1)
        { labels := out.labels ++ [(id, letter ++ toString nodeIndex)]
          treeLabels := out.treeLabels ++ [(id, letter)]
          treeIndices := out.treeIndices ++ [(id, treeIndex)] }

/-- `roots.forEach((root, treeIndex) => ...)`: one BFS per root, letters in
root-discovery order. -/
def labelRoots (childIds : String → List String) (fuel : Nat) :
    List Msg → Nat → LabelsOut → LabelsOut
  | [], _, out => out
  | r :: rs, treeIndex, out =>
    labelRoots childIds fuel rs (treeIndex + 1)
      (bfsLabel childIds (letterOf treeIndex) treeIndex fuel [r.id] [] 1 out)

/-- The roots, in the order they appear in the input:
`messages.filter((m) => !getParentId(m))`. -/
def rootsOf (msgs : List Msg) : List Msg :=
  msgs.filter (fun m => m.parent_id == none)

/-- `generateShortLabels` of `types.ts`.  The BFS fuel `(n+1)*(n+1)` bounds
the number of queue pops (at most one initial entry plus one enqueued child
per (visited node, message) pair). -/
def generateShortLabels (msgs : List Msg) : LabelsOut :=
  labelRoots (childIdsOf msgs) ((msgs.length + 1) * (msgs.length + 1)) (rootsOf msgs) 0
    ⟨[], [], []⟩

/-! ### Context aggregator (`getContextMessages` of `page.tsx`, lines 655-707) -/

/-- The root-resolution loop of `getContextMessages`:

    let root = messagesById.get(refId);
    while (root?.parent_id) { root = messagesById.get(root.parent_id); }

If the parent lookup fails the loop exits with `root` undefined and the
reference is skipped.  The source has no visited-set here, so on a stored
parent chain that cycles it would not terminate; the fuel cut-off only ever
fires on such malformed data. -/
def rootWalk (msgs : List Msg) : Nat → Option Msg → Option Msg
  | 0, _ => none
  | _ + 1, none => none
  | fuel + 1, some m =>
    match m.parent_id with
    | none => some m
    | some p => rootWalk msgs fuel (lookup msgs p)

/-- The referenced-tree BFS of `getContextMessages`: pop an id, skip if
visited, record the message if found, enqueue its children (in input order —
unlike the label generator, this loop does not sort them). -/
def treeCollect (msgs : List Msg) :
    Nat → List String → List String → List Msg → List Msg × List String
  | 0, _, visited, acc => (acc, visited)
  | _ + 1, [], visited, acc => (acc, visited)
  | fuel + 1, id :: queue, visited, acc =>
    if id ∈ visited then treeCollect msgs fuel queue visited acc
    else
      match lookup msgs id with
      | none => treeCollect msgs fuel queue (id :: visited) acc
      | some m =>
        treeCollect msgs fuel
          (queue ++ ((msgs.filter (fun c => c.parent_id == some id)).map (fun c => c.id)))
          (id :: visited) (acc ++ [m])

/-- The `for (const refId of branchRefs)` loop: resolve each reference to its
root and expand that whole tree, threading the shared visited set. -/
def refsCollect (msgs : List Msg) (fuel : Nat) :
    List String → List String → List Msg → List Msg × List String
  | [], visited, acc => (acc, visited)
  | refId :: refs, visited, acc =>
    match rootWalk msgs fuel (lookup msgs refId) with
    | none => refsCollect msgs fuel refs visited acc
    | some root =>
      let step := treeCollect msgs fuel [root.id] visited acc
      refsCollect msgs fuel refs step.2 step.1

/-- Fuel used by the aggregator walks: enough for the ancestry walk
(`n + 1` visited-guarded steps) and for the BFS (at most `(n+1)*(n+1)` queue
entries). -/
def ctxFuel (msgs : List Msg) : Nat :=
  (msgs.length + 1) * (msgs.length + 1)

/-- `getContextMessages` of `page.tsx`: main ancestry (root-first), then each
referenced branch expanded as a whole tree, deduplicated through the shared
visited set, finally sorted by creation time. -/
def getContextMessages (msgs : List Msg) (nodeId : String) (branchRefs : List String) :
    List Msg :=
  let anc := ancWalkAux msgs (msgs.length + 1) [] (lookup msgs nodeId)
  let collected := refsCollect msgs (ctxFuel msgs) branchRefs anc.2 anc.1.reverse
  collected.1.insertionSort createdLe

/-- Modelled from the spec: the aggregator variant that additionally "accepts
an optional exclusion predicate and applies it as the very last step, after
chronological sort".  No caller under `src/` applies the Context Lens's
include/exclude toggles to the aggregated context — `getContextMessages`
takes no predicate and `ContextLens.tsx` is presentational — so this final
filtering step is reconstructed from the spec's words on top of the
source-embedded `getContextMessages`. -/
def getContextMessagesExcluding (msgs : List Msg) (nodeId : String)
    (branchRefs : List String) (excluded : Option (String → Bool)) : List Msg :=
  match excluded with
  | none => getContextMessages msgs nodeId branchRefs
  | some p => (getContextMessages msgs nodeId branchRefs).filter (fun m => !(p m.id))

/-! ### Tree layout engine (`dagre-layout.ts`) -/

/-- A ReactFlow node as the layout engine sees it: id and node type
(`"user"` or `"agent"`, set from the message role by `page.tsx`). -/
structure FNode where
  id : String
  type : String
deriving DecidableEq, Repr

/-- A ReactFlow edge: `type` is `"reply"` for tree edges, `"reference"` for
cross-tree references (ignored by the layout). -/
structure FEdge where
  source : String
  target : String
  type : String
deriving DecidableEq, Repr

/-- A node placed by the layout, with the dimensions the source also writes
back onto the node. -/
structure PlacedNode where
  node : FNode
  x : Int
  y : Int
  width : Int
  height : Int
deriving DecidableEq, Repr

/-- `getNodeDimensions`: agent nodes are 320x200, user nodes 280x120. -/
def nodeWidth (n : FNode) : Int :=
  if n.type == "agent" then 320 else 280

/-- Height component of `getNodeDimensions`. -/
def nodeHeight (n : FNode) : Int :=
  if n.type == "agent" then 200 else 120

/-- State of the `assignToTree` recursion: the `nodeToTree` map and the
`nodesByTree` map, both in JavaScript `Map` insertion order. -/
structure AssignSt where
  nodeToTree : List (String × String)
  trees : List (String × List FNode)
deriving Repr

/-- Association-list lookup (JavaScript `Map.get`). -/
def alistGet {α : Type} (l : List (String × α)) (k : String) : Option α :=
  (l.find? (fun kv => kv.1 == k)).map (fun kv => kv.2)

/-- `Map.set`: replace in place when the key exists (keeping its insertion
position), append otherwise. -/
def alistSet {α : Type} (k : String) (v : α) : List (String × α) → List (String × α)
  | [] => [(k, v)]
  | kv :: rest => if kv.1 == k then (k, v) :: rest else kv :: alistSet k v rest

/-- `assignToTree` of `dagre-layout.ts`: depth-first assignment of a node (and
its reply-children) to the tree of a root.  The recursion is guarded by the
`nodeToTree` membership test; fuel bounds the recursion depth, which the
top-level caller sets above the number of assignable ids. -/
def assignToTree (nodes : List FNode) (replyEdges : List FEdge) :
    Nat → String → String → AssignSt → AssignSt
  | 0, _, _, st => st
  | fuel + 1, nodeId, treeId, st =>
    if st.nodeToTree.any (fun kv => kv.1 == nodeId) then st
    else
      let st1 : AssignSt := { st with nodeToTree := st.nodeToTree ++ [(nodeId, treeId)] }
      let st2 : AssignSt :=
        match nodes.find? (fun n => n.id == nodeId) with
        | some node =>
          { st1 with
            trees := alistSet treeId ((alistGet st1.trees treeId).getD [] ++ [node]) st1.trees }
        | none => st1
      (replyEdges.filter (fun e => e.source == nodeId)).foldl
        (fun acc e => assignToTree nodes replyEdges fuel e.target treeId acc) st2

/-- Place one tree: compute its dagre bounding box, shift it so its left edge
sits at `currentX`, and advance the cursor by the tree width plus the
100-pixel inter-tree margin.  `pos` models the per-node result of
`dagre.layout` (`dagreGraph.node(id)` center coordinates); the theorem
statements quantify over it.  An empty tree list is unreachable (the source
only creates a `nodesByTree` entry when it pushes a node); the `[]` case here
just advances the margin. -/
def placeTree (pos : String → Int × Int) (currentX : Int) :
    List FNode → List PlacedNode × Int
  | [] => ([], currentX + 100)
  | n0 :: rest =>
    let lo := fun (n : FNode) => (pos n.id).1 - nodeWidth n / 2
    let hi := fun (n : FNode) => (pos n.id).1 + nodeWidth n / 2
    let minX := rest.foldl (fun acc n => min acc (lo n)) (lo n0)
    let maxX := rest.foldl (fun acc n => max acc (hi n)) (hi n0)
    let offsetX := currentX - minX
    (((n0 :: rest).map fun n =>
      { node := n
        x := (pos n.id).1 - nodeWidth n / 2 + offsetX
        y := (pos n.id).2 - nodeHeight n / 2
        width := nodeWidth n
        height := nodeHeight n }),
      currentX + (maxX - minX) + 100)

/-- The per-tree loop of `getLayoutedElements`, producing one placed list per
tree while accumulating the x cursor. -/
def placeTrees (pos : String → Int × Int) :
    List (List FNode) → Int → List (List PlacedNode)
  | [], _ => []
  | ts :: rest, currentX =>
    let step := placeTree pos currentX ts
    step.1 :: placeTrees pos rest step.2

/-- The tree partition computed by `getLayoutedElements`: roots are the nodes
with no incoming reply edge, each assigned (with its descendants) to its own
tree. -/
def layoutForest (nodes : List FNode) (edges : List FEdge) : List (List FNode) :=
  let replyEdges := edges.filter (fun e => e.type == "reply")
  let nodesWithParent := replyEdges.map (fun e => e.target)
  let roots := nodes.filter (fun n => !(nodesWithParent.contains n.id))
  let fuel := nodes.length + edges.length + 2
  (roots.foldl (fun st r => assignToTree nodes replyEdges fuel r.id r.id st)
    ⟨[], []⟩).trees.map (fun kv => kv.2)

/-- The layout engine, tree by tree (before flattening). -/
def layoutTrees (nodes : List FNode) (edges : List FEdge) (pos : String → Int × Int) :
    List (List PlacedNode) :=
  placeTrees pos (layoutForest nodes edges) 0

/-- `getLayoutedElements` of `dagre-layout.ts`: the flat placed-node list. -/
def getLayoutedElements (nodes : List FNode) (edges : List FEdge)
    (pos : String → Int × Int) : List PlacedNode :=
  (layoutTrees nodes edges pos).flatten

/-- The node construction of the `page.tsx` layout effect (lines 519-562):
one ReactFlow node per message, typed by role, position reset to `(0, 0)`
before layout (saved/user positions do not feed into this computation). -/
def pageNodes (msgs : List Msg) : List FNode :=
  msgs.map (fun m => { id := m.id, type := if m.role == "user" then "user" else "agent" })

/-- The reply edges the `page.tsx` effect builds (lines 566-577): one edge
`parent_id → id` per message with a parent, whether or not the parent id
exists in the node set. -/
def pageReplyEdges (msgs : List Msg) : List FEdge :=
  msgs.filterMap (fun m =>
    m.parent_id.map (fun p => { source := p, target := m.id, type := "reply" }))

/-- The reference edges of the effect (lines 580-589), as
`(source, target)` pairs from the references table; the layout filters them
out. -/
def pageRefEdges (refs : List (String × String)) : List FEdge :=
  refs.map (fun r => { source := r.1, target := r.2, type := "reference" })

/-- The `needsLayout` branch of the `page.tsx` layout effect (lines 591-599):
when the message count changed, every node is rebuilt at `(0, 0)` and laid
out afresh by `getLayoutedElements`; the previously rendered nodes (and hence
any user-dragged or persisted position) do not enter the computation. -/
def layoutEffectRun (priorNodes : List PlacedNode) (msgs : List Msg)
    (refs : List (String × String)) (pos : String → Int × Int)
    (needsLayout : Bool) : List PlacedNode :=
  if needsLayout then
    getLayoutedElements (pageNodes msgs) (pageReplyEdges msgs ++ pageRefEdges refs) pos
  else priorNodes

/-! ### Collaboration reconciler (`handleRemoteUpdate` of the builder page and
the `sync_response` handler of `useCanvasCollaboration.ts`) -/

/-- The data payload of a builder block.  The `onEdit`/`onDelete` callback
fields the source re-binds on received nodes are functions, not data, and are
omitted from the model. -/
structure BData where
  btype : String
  title : String
  description : String
  status : String
deriving DecidableEq, Repr

/-- A canvas block node: id, position, data. -/
structure BNode where
  id : String
  x : Int
  y : Int
  data : BData
deriving DecidableEq, Repr

/-- A canvas edge. -/
structure BEdge where
  id : String
  source : String
  target : String
deriving DecidableEq, Repr

/-- The fields of a `Partial<Node>` update (`broadcastNodeUpdate` sends either
a position change or a data change); `none` means the field is absent from
the spread. -/
structure BChanges where
  position : Option (Int × Int)
  data : Option BData
deriving DecidableEq, Repr

/-- `{ ...n, ...changes }`. -/
def applyChanges (n : BNode) (c : BChanges) : BNode :=
  { n with
    x := match c.position with | some p => p.1 | none => n.x
    y := match c.position with | some p => p.2 | none => n.y
    data := c.data.getD n.data }

/-- The `node_update` case of `handleRemoteUpdate`:
`nds.map((n) => n.id === nodeId ? { ...n, ...changes } : n)`. -/
def applyNodeUpdate (nds : List BNode) (nodeId : String) (changes : BChanges) :
    List BNode :=
  nds.map (fun n => if n.id == nodeId then applyChanges n changes else n)

/-- The node half of the `bulk_update` case: when local state is empty take
the incoming nodes wholesale, otherwise append only the incoming nodes whose
ids are not present locally (the source's early return for "no new nodes"
yields the same list). -/
def mergeBulkNodes (current incoming : List BNode) : List BNode :=
  if current.isEmpty then incoming
  else
    current ++ incoming.filter (fun n => !((current.map (fun c => c.id)).contains n.id))

/-- The edge half of the `bulk_update` case. -/
def mergeBulkEdges (current incoming : List BEdge) : List BEdge :=
  if current.isEmpty then incoming
  else
    current ++ incoming.filter (fun e => !((current.map (fun c => c.id)).contains e.id))

/-! ### Orbit of the parent walk (specification-level view of ancestry)

`orbitList msgs a k d` lists the nodes at positions `k, k+1, ..., k+d-1` of
the parent walk from `a`, stopping early if the walk runs off the model. -/

/-- The nodes of the parent walk from `a`, starting at step `k`, for `d`
steps. -/
def orbitList (msgs : List Msg) (a : String) : Nat → Nat → List Msg
  | _, 0 => []
  | k, d + 1 =>
    match iterAnc msgs a k with
    | none => []
    | some m => m :: orbitList msgs a (k + 1) d

/-! ### Concrete data used by counterexamples and witnesses -/

/-- A root message. -/
def mA : Msg := ⟨"a", none, "user", "question", 0⟩

/-- Reply to `mA`. -/
def mB : Msg := ⟨"b", some "a", "assistant", "answer", 1⟩

/-- Reply to `mB`. -/
def mC : Msg := ⟨"c", some "b", "user", "follow-up", 2⟩

/-- A second root. -/
def mD : Msg := ⟨"d", none, "user", "other thread", 5⟩

/-- Reply to `mD`. -/
def mE : Msg := ⟨"e", some "d", "assistant", "other answer", 7⟩

/-- A message whose `parent_id` points at an id absent from every node set it
is used with. -/
def mOrphan : Msg := ⟨"o", some "ghost", "user", "orphan", 9⟩

/-- A root created *after* its child (malformed timestamps). -/
def mLateRoot : Msg := ⟨"x1", none, "user", "late root", 5⟩

/-- Child of `mLateRoot` with an earlier timestamp. -/
def mEarlyChild : Msg := ⟨"x2", some "x1", "assistant", "early child", 3⟩

/-- The dagre placement used in concrete layout evaluations: every queried
node sits at the origin of its tree-local frame. -/
def posZero : String → Int × Int := fun _ => (0, 0)

/-- The single-message conversation of the C8 failing input. -/
def c8msgs : List Msg := [⟨"m1", none, "user", "hello", 0⟩]

/-! ## Basic lemmas about the embedding -/

/-- A successful lookup returns a message carrying the looked-up id. -/
theorem lookup_id {msgs : List Msg} {id : String} {m : Msg}
    (h : lookup msgs id = some m) : m.id = id := by
  have h2 := List.find?_some h
  simpa using h2

/-- A successful lookup returns a member of the model. -/
theorem lookup_mem {msgs : List Msg} {id : String} {m : Msg}
    (h : lookup msgs id = some m) : m ∈ msgs :=
  List.mem_of_find?_eq_some h

/-- Looking a walk element up by its own id finds it again. -/
theorem lookup_self {msgs : List Msg} {id : String} {m : Msg}
    (h : lookup msgs id = some m) : lookup msgs m.id = some m := by
  rw [lookup_id h]; exact h

/-- The ancestry walk in full: the final visited set is exactly the chain's
ids (most recent first) on top of the initial one, the chain's ids are
pairwise distinct, and none of them was visited before the walk started. -/
theorem ancWalk_spec (msgs : List Msg) :
    ∀ (fuel : Nat) (visited : List String) (cur : Option Msg),
      (ancWalkAux msgs fuel visited cur).2
          = ((ancWalkAux msgs fuel visited cur).1.map Msg.id).reverse ++ visited ∧
        ((ancWalkAux msgs fuel visited cur).1.map Msg.id).Nodup ∧
        ∀ m ∈ (ancWalkAux msgs fuel visited cur).1, m.id ∉ visited := by
  intro fuel
  induction fuel with
  | zero => intro visited cur; simp [ancWalkAux]
  | succ fuel ih =>
    intro visited cur
    match cur with
    | none => simp [ancWalkAux]
    | some m =>
      by_cases hv : m.id ∈ visited
      · simp [ancWalkAux, hv]
      · obtain ⟨ih1, ih2, ih3⟩ := ih (m.id :: visited) (parentStep msgs m)
        have hred : ancWalkAux msgs (fuel + 1) visited (some m)
            = (m :: (ancWalkAux msgs fuel (m.id :: visited) (parentStep msgs m)).1,
               (ancWalkAux msgs fuel (m.id :: visited) (parentStep msgs m)).2) := by
          simp [ancWalkAux, hv]
        rw [hred]
        refine ⟨?_, ?_, ?_⟩
        · simp only [List.map_cons, List.reverse_cons]
          rw [ih1, List.append_assoc]
          rfl
        · simp only [List.map_cons, List.nodup_cons]
          refine ⟨?_, ih2⟩
          intro hmem
          obtain ⟨m2, hm2, hid⟩ := List.mem_map.mp hmem
          exact (ih3 m2 hm2) (by rw [hid]; exact List.mem_cons_self _ _)
        · intro m2 hm2
          rcases List.mem_cons.mp hm2 with h | h
          · rw [h]; exact hv
          · intro hcon
            exact (ih3 m2 h) (List.mem_cons_of_mem _ hcon)

/-- The referenced-tree BFS preserves the aggregator's dedup invariant: if
the accumulated ids are distinct and all visited, they stay so. -/
theorem treeCollect_inv (msgs : List Msg) :
    ∀ (fuel : Nat) (queue visited : List String) (acc : List Msg),
      (acc.map Msg.id).Nodup → (∀ m ∈ acc, m.id ∈ visited) →
      ((treeCollect msgs fuel queue visited acc).1.map Msg.id).Nodup ∧
        ∀ m ∈ (treeCollect msgs fuel queue visited acc).1,
          m.id ∈ (treeCollect msgs fuel queue visited acc).2 := by
  intro fuel
  induction fuel with
  | zero =>
    intro queue visited acc h1 h2
    exact ⟨h1, h2⟩
  | succ fuel ih =>
    intro queue visited acc h1 h2
    match queue with
    | [] => exact ⟨h1, h2⟩
    | id :: queue =>
      by_cases hv : id ∈ visited
      · have hred : treeCollect msgs (fuel + 1) (id :: queue) visited acc
            = treeCollect msgs fuel queue visited acc := by
          simp [treeCollect, hv]
        rw [hred]; exact ih queue visited acc h1 h2
      · rcases hlk : lookup msgs id with _ | m
        · have hred : treeCollect msgs (fuel + 1) (id :: queue) visited acc
              = treeCollect msgs fuel queue (id :: visited) acc := by
            simp [treeCollect, hv, hlk]
          rw [hred]
          exact ih queue (id :: visited) acc h1
            (fun m hm => List.mem_cons_of_mem _ (h2 m hm))
        · have hred : treeCollect msgs (fuel + 1) (id :: queue) visited acc
              = treeCollect msgs fuel
                  (queue ++ ((msgs.filter (fun c => c.parent_id == some id)).map
                    (fun c => c.id)))
                  (id :: visited) (acc ++ [m]) := by
            simp [treeCollect, hv, hlk]
          rw [hred]
          have hmid : m.id = id := lookup_id hlk
          refine ih _ (id :: visited) (acc ++ [m]) ?_ ?_
          · simp only [List.map_append, List.map_cons, List.map_nil]
            rw [List.nodup_append]
            refine ⟨h1, List.nodup_singleton _, ?_⟩
            intro x hx
            simp only [List.mem_singleton]
            intro hxm
            obtain ⟨m2, hm2, hid2⟩ := List.mem_map.mp hx
            apply hv
            rw [← hmid, ← hxm, ← hid2]
            exact h2 m2 hm2
          · intro m2 hm2
            rcases List.mem_append.mp hm2 with h | h
            · exact List.mem_cons_of_mem _ (h2 m2 h)
            · rw [List.mem_singleton.mp h, hmid]
              exact List.mem_cons_self _ _

/-- The reference loop of the aggregator preserves the same invariant. -/
theorem refsCollect_inv (msgs : List Msg) (fuel : Nat) :
    ∀ (refs : List String) (visited : List String) (acc : List Msg),
      (acc.map Msg.id).Nodup → (∀ m ∈ acc, m.id ∈ visited) →
      ((refsCollect msgs fuel refs visited acc).1.map Msg.id).Nodup ∧
        ∀ m ∈ (refsCollect msgs fuel refs visited acc).1,
          m.id ∈ (refsCollect msgs fuel refs visited acc).2 := by
  intro refs
  induction refs with
  | nil => intro visited acc h1 h2; exact ⟨h1, h2⟩
  | cons refId refs ih =>
    intro visited acc h1 h2
    rcases hroot : rootWalk msgs fuel (lookup msgs refId) with _ | root
    · have hred : refsCollect msgs fuel (refId :: refs) visited acc
          = refsCollect msgs fuel refs visited acc := by
        simp [refsCollect, hroot]
      rw [hred]; exact ih visited acc h1 h2
    · have hred : refsCollect msgs fuel (refId :: refs) visited acc
          = refsCollect msgs fuel refs
              (treeCollect msgs fuel [root.id] visited acc).2
              (treeCollect msgs fuel [root.id] visited acc).1 := by
        simp [refsCollect, hroot]
      rw [hred]
      obtain ⟨ht1, ht2⟩ := treeCollect_inv msgs fuel [root.id] visited acc h1 h2
      exact ih _ _ ht1 ht2

/-- The referenced-tree BFS only ever appends to the accumulator. -/
theorem treeCollect_acc_extends (msgs : List Msg) :
    ∀ (fuel : Nat) (queue visited : List String) (acc : List Msg),
      ∃ ext, (treeCollect msgs fuel queue visited acc).1 = acc ++ ext := by
  intro fuel
  induction fuel with
  | zero => intro queue visited acc; exact ⟨[], (List.append_nil acc).symm⟩
  | succ fuel ih =>
    intro queue visited acc
    match queue with
    | [] => exact ⟨[], (List.append_nil acc).symm⟩
    | id :: queue =>
      by_cases hv : id ∈ visited
      · have hred : treeCollect msgs (fuel + 1) (id :: queue) visited acc
            = treeCollect msgs fuel queue visited acc := by
          simp [treeCollect, hv]
        rw [hred]; exact ih queue visited acc
      · rcases hlk : lookup msgs id with _ | m
        · have hred : treeCollect msgs (fuel + 1) (id :: queue) visited acc
              = treeCollect msgs fuel queue (id :: visited) acc := by
            simp [treeCollect, hv, hlk]
          rw [hred]; exact ih queue (id :: visited) acc
        · have hred : treeCollect msgs (fuel + 1) (id :: queue) visited acc
              = treeCollect msgs fuel
                  (queue ++ ((msgs.filter (fun c => c.parent_id == some id)).map
                    (fun c => c.id)))
                  (id :: visited) (acc ++ [m]) := by
            simp [treeCollect, hv, hlk]
          rw [hred]
          obtain ⟨ext, hext⟩ := ih
            (queue ++ ((msgs.filter (fun c => c.parent_id == some id)).map (fun c => c.id)))
            (id :: visited) (acc ++ [m])
          exact ⟨[m] ++ ext, by rw [hext, List.append_assoc]⟩

/-- The reference loop only ever appends to the accumulator. -/
theorem refsCollect_acc_extends (msgs : List Msg) (fuel : Nat) :
    ∀ (refs visited : List String) (acc : List Msg),
      ∃ ext, (refsCollect msgs fuel refs visited acc).1 = acc ++ ext := by
  intro refs
  induction refs with
  | nil => intro visited acc; exact ⟨[], (List.append_nil acc).symm⟩
  | cons refId refs ih =>
    intro visited acc
    rcases hroot : rootWalk msgs fuel (lookup msgs refId) with _ | root
    · have hred : refsCollect msgs fuel (refId :: refs) visited acc
          = refsCollect msgs fuel refs visited acc := by
        simp [refsCollect, hroot]
      rw [hred]; exact ih visited acc
    · have hred : refsCollect msgs fuel (refId :: refs) visited acc
          = refsCollect msgs fuel refs
              (treeCollect msgs fuel [root.id] visited acc).2
              (treeCollect msgs fuel [root.id] visited acc).1 := by
        simp [refsCollect, hroot]
      rw [hred]
      obtain ⟨e1, he1⟩ := treeCollect_acc_extends msgs fuel [root.id] visited acc
      obtain ⟨e2, he2⟩ := ih (treeCollect msgs fuel [root.id] visited acc).2
        (treeCollect msgs fuel [root.id] visited acc).1
      exact ⟨e1 ++ e2, by rw [he2, he1, List.append_assoc]⟩

/-- Every node of the target's ancestry chain survives into the aggregated
context: when a node is reachable both through the ancestry and through a
referenced tree, it is the ancestry occurrence that stays. -/
theorem ancestry_mem_getContextMessages (msgs : List Msg) (nodeId : String)
    (branchRefs : List String) :
    ∀ m ∈ (ancWalkAux msgs (msgs.length + 1) [] (lookup msgs nodeId)).1,
      m ∈ getContextMessages msgs nodeId branchRefs := by
  intro m hm
  obtain ⟨ext, hext⟩ := refsCollect_acc_extends msgs (ctxFuel msgs) branchRefs
    (ancWalkAux msgs (msgs.length + 1) [] (lookup msgs nodeId)).2
    (ancWalkAux msgs (msgs.length + 1) [] (lookup msgs nodeId)).1.reverse
  have hbase : getContextMessages msgs nodeId branchRefs
      = (refsCollect msgs (ctxFuel msgs) branchRefs
          (ancWalkAux msgs (msgs.length + 1) [] (lookup msgs nodeId)).2
          (ancWalkAux msgs (msgs.length + 1) [] (lookup msgs nodeId)).1.reverse).1.insertionSort
        createdLe := rfl
  rw [hbase]
  refine (List.perm_insertionSort createdLe _).mem_iff.mpr ?_
  rw [hext]
  exact List.mem_append.mpr (Or.inl (List.mem_reverse.mpr hm))

/-- The aggregated (pre-sort) context has pairwise-distinct ids. -/
theorem ctxCollected_ids_nodup (msgs : List Msg) (nodeId : String)
    (branchRefs : List String) :
    ((refsCollect msgs (ctxFuel msgs) branchRefs
        (ancWalkAux msgs (msgs.length + 1) [] (lookup msgs nodeId)).2
        (ancWalkAux msgs (msgs.length + 1) [] (lookup msgs nodeId)).1.reverse).1.map
      Msg.id).Nodup := by
  obtain ⟨ha1, ha2, _⟩ := ancWalk_spec msgs (msgs.length + 1) [] (lookup msgs nodeId)
  refine (refsCollect_inv msgs (ctxFuel msgs) branchRefs _ _ ?_ ?_).1
  · rw [List.map_reverse]
    exact List.nodup_reverse.mpr ha2
  · intro m hm
    rw [ha1, List.append_nil, ← List.map_reverse]
    exact List.mem_map_of_mem Msg.id hm

/-- The aggregator's output ids are pairwise distinct (helper shared by the
claim theorems below). -/
theorem getContextMessages_ids_nodup (msgs : List Msg) (nodeId : String)
    (branchRefs : List String) :
    ((getContextMessages msgs nodeId branchRefs).map Msg.id).Nodup := by
  have hperm := List.perm_insertionSort createdLe
    (refsCollect msgs (ctxFuel msgs) branchRefs
      (ancWalkAux msgs (msgs.length + 1) [] (lookup msgs nodeId)).2
      (ancWalkAux msgs (msgs.length + 1) [] (lookup msgs nodeId)).1.reverse).1
  have hmaps := hperm.map Msg.id
  exact (List.Perm.nodup_iff hmaps).mpr (ctxCollected_ids_nodup msgs nodeId branchRefs)

/-- The aggregator's output is chronologically sorted (helper shared by the
claim theorems below). -/
theorem getContextMessages_sorted (msgs : List Msg) (nodeId : String)
    (branchRefs : List String) :
    (getContextMessages msgs nodeId branchRefs).Sorted createdLe :=
  List.sorted_insertionSort createdLe _

/-! ## Claim C4: dedup by id and final chronological sort -/

/-- C4: for every target node and reference list, the aggregated context
contains no two entries with the same id (the shared visited set lets the
ancestry occurrence win when a node is reached twice), and the returned
sequence is sorted by `createdAt` ascending regardless of which step
contributed each node. -/
theorem context_dedup_and_sort (msgs : List Msg) (nodeId : String)
    (branchRefs : List String) :
    ((getContextMessages msgs nodeId branchRefs).map Msg.id).Nodup ∧
    (getContextMessages msgs nodeId branchRefs).Sorted createdLe ∧
    ∀ m ∈ (ancWalkAux msgs (msgs.length + 1) [] (lookup msgs nodeId)).1,
      m ∈ getContextMessages msgs nodeId branchRefs :=
  ⟨getContextMessages_ids_nodup msgs nodeId branchRefs,
    getContextMessages_sorted msgs nodeId branchRefs,
    ancestry_mem_getContextMessages msgs nodeId branchRefs⟩

/-- Witness for C4 at a concrete input: the context of `"c"` referencing
`"e"` lists each id once, chronologically, and keeps the full ancestry
`a, b, c`. -/
theorem context_dedup_and_sort_witness :
    ((getContextMessages [mA, mB, mC, mD, mE] "c" ["e"]).map
      (fun m => m.id) = ["a", "b", "c", "d", "e"]) ∧
    (mB ∈ (ancWalkAux [mA, mB, mC, mD, mE] 6 [] (lookup [mA, mB, mC, mD, mE] "c")).1 ∧
      mB ∈ getContextMessages [mA, mB, mC, mD, mE] "c" ["e"]) :=
  ⟨by decide,
    ⟨by decide,
      (context_dedup_and_sort [mA, mB, mC, mD, mE] "c" ["e"]).2.2 mB (by decide)⟩⟩

/-! ## Layout geometry lemmas (for C7) -/

/-- A running `min`-fold is bounded by its seed. -/
theorem foldl_min_le_init (f : FNode → Int) :
    ∀ (l : List FNode) (a : Int), l.foldl (fun acc n => min acc (f n)) a ≤ a := by
  intro l
  induction l with
  | nil => intro a; exact le_refl a
  | cons n l ih =>
    intro a
    exact le_trans (ih (min a (f n))) (min_le_left _ _)

/-- A running `min`-fold is bounded by every listed value. -/
theorem foldl_min_le_mem (f : FNode → Int) :
    ∀ (l : List FNode) (a : Int) (n : FNode), n ∈ l →
      l.foldl (fun acc x => min acc (f x)) a ≤ f n := by
  intro l
  induction l with
  | nil => intro a n hn; exact absurd hn (List.not_mem_nil n)
  | cons x l ih =>
    intro a n hn
    rcases List.mem_cons.mp hn with h | h
    · subst h
      exact le_trans (foldl_min_le_init f l (min a (f n))) (min_le_right _ _)
    · exact ih (min a (f x)) n h

/-- A running `max`-fold dominates its seed. -/
theorem le_foldl_max_init (f : FNode → Int) :
    ∀ (l : List FNode) (a : Int), a ≤ l.foldl (fun acc n => max acc (f n)) a := by
  intro l
  induction l with
  | nil => intro a; exact le_refl a
  | cons n l ih =>
    intro a
    exact le_trans (le_max_left _ _) (ih (max a (f n)))

/-- A running `max`-fold dominates every listed value. -/
theorem le_foldl_max_mem (f : FNode → Int) :
    ∀ (l : List FNode) (a : Int) (n : FNode), n ∈ l →
      f n ≤ l.foldl (fun acc x => max acc (f x)) a := by
  intro l
  induction l with
  | nil => intro a n hn; exact absurd hn (List.not_mem_nil n)
  | cons x l ih =>
    intro a n hn
    rcases List.mem_cons.mp hn with h | h
    · subst h
      exact le_trans (le_max_right _ _) (le_foldl_max_init f l (max a (f n)))
    · exact ih (max a (f x)) n h

/-- Node widths are even, so the two integer half-widths recombine exactly. -/
theorem nodeWidth_halves (n : FNode) :
    nodeWidth n / 2 + nodeWidth n / 2 = nodeWidth n := by
  unfold nodeWidth
  by_cases h : n.type == "agent" <;> simp [h]

/-- Half-widths are nonnegative. -/
theorem nodeWidth_half_nonneg (n : FNode) : 0 ≤ nodeWidth n / 2 := by
  unfold nodeWidth
  by_cases h : n.type == "agent" <;> simp [h]

/-- Every node a tree placement emits sits inside the band the cursor
reserves for the tree: at or right of `cX`, and ending (with its 100-pixel
margin) at or left of the advanced cursor. -/
theorem placeTree_bounds (pos : String → Int × Int) (cX : Int) (ts : List FNode) :
    ∀ q ∈ (placeTree pos cX ts).1,
      cX ≤ q.x ∧ q.x + q.width + 100 ≤ (placeTree pos cX ts).2 := by
  match ts with
  | [] => intro q hq; exact absurd hq (List.not_mem_nil q)
  | n0 :: rest =>
    intro q hq
    simp only [placeTree, List.mem_map] at hq
    obtain ⟨n, hn, hq⟩ := hq
    subst hq
    simp only [placeTree]
    constructor
    · have hmin : (rest.foldl
          (fun acc x => min acc ((pos x.id).1 - nodeWidth x / 2))
          ((pos n0.id).1 - nodeWidth n0 / 2)) ≤ (pos n.id).1 - nodeWidth n / 2 := by
        rcases List.mem_cons.mp hn with h | h
        · subst h; exact foldl_min_le_init _ rest _
        · exact foldl_min_le_mem _ rest _ n h
      omega
    · have hmax : (pos n.id).1 + nodeWidth n / 2 ≤ (rest.foldl
          (fun acc x => max acc ((pos x.id).1 + nodeWidth x / 2))
          ((pos n0.id).1 + nodeWidth n0 / 2)) := by
        rcases List.mem_cons.mp hn with h | h
        · subst h; exact le_foldl_max_init _ rest _
        · exact le_foldl_max_mem _ rest _ n h
      have hw := nodeWidth_halves n
      omega

/-- Placing a tree advances the cursor by at least the margin. -/
theorem placeTree_cursor (pos : String → Int × Int) (cX : Int) (ts : List FNode) :
    cX + 100 ≤ (placeTree pos cX ts).2 := by
  match ts with
  | [] => simp [placeTree]
  | n0 :: rest =>
    simp only [placeTree]
    have hmin : (rest.foldl
        (fun acc x => min acc ((pos x.id).1 - nodeWidth x / 2))
        ((pos n0.id).1 - nodeWidth n0 / 2)) ≤ (pos n0.id).1 - nodeWidth n0 / 2 :=
      foldl_min_le_init _ rest _
    have hmax : (pos n0.id).1 + nodeWidth n0 / 2 ≤ (rest.foldl
        (fun acc x => max acc ((pos x.id).1 + nodeWidth x / 2))
        ((pos n0.id).1 + nodeWidth n0 / 2)) :=
      le_foldl_max_init _ rest _
    have hw := nodeWidth_half_nonneg n0
    omega

/-- Every node of every tree placed after cursor position `cX` lies at or
right of `cX`. -/
theorem placeTrees_lower_bound (pos : String → Int × Int) :
    ∀ (trees : List (List FNode)) (cX : Int) (j : Nat) (tj : List PlacedNode),
      (placeTrees pos trees cX).get? j = some tj → ∀ v ∈ tj, cX ≤ v.x := by
  intro trees
  induction trees with
  | nil => intro cX j tj hj; simp [placeTrees] at hj
  | cons ts rest ih =>
    intro cX j tj hj v hv
    match j with
    | 0 =>
      simp only [placeTrees, List.get?_cons_zero, Option.some.injEq] at hj
      subst hj
      exact (placeTree_bounds pos cX ts v hv).1
    | j + 1 =>
      simp only [placeTrees, List.get?_cons_succ] at hj
      have := ih (placeTree pos cX ts).2 j tj hj v hv
      have hc := placeTree_cursor pos cX ts
      omega

/-- Trees placed earlier end strictly left of where any later tree begins. -/
theorem placeTrees_disjoint (pos : String → Int × Int) :
    ∀ (trees : List (List FNode)) (cX : Int) (i j : Nat)
      (ti tj : List PlacedNode), i < j →
      (placeTrees pos trees cX).get? i = some ti →
      (placeTrees pos trees cX).get? j = some tj →
      ∀ u ∈ ti, ∀ v ∈ tj, u.x + u.width < v.x := by
  intro trees
  induction trees with
  | nil => intro cX i j ti tj hij hi hj; simp [placeTrees] at hi
  | cons ts rest ih =>
    intro cX i j ti tj hij hi hj u hu v hv
    match i, j with
    | 0, j + 1 =>
      simp only [placeTrees, List.get?_cons_zero, Option.some.injEq] at hi
      subst hi
      simp only [placeTrees, List.get?_cons_succ] at hj
      have hub := (placeTree_bounds pos cX ts u hu).2
      have hvb := placeTrees_lower_bound pos rest (placeTree pos cX ts).2 j tj hj v hv
      omega
    | i + 1, j + 1 =>
      simp only [placeTrees, List.get?_cons_succ] at hi hj
      exact ih (placeTree pos cX ts).2 i j ti tj (by omega) hi hj u hu v hv

/-! ## Claim C7: trees never overlap horizontally -/

/-- C7: `getLayoutedElements` lays trees out left to right with the
accumulated x-offset, so for every node list, edge list and dagre placement,
any node of an earlier tree ends strictly left (by at least the margin) of
any node of a later tree — the horizontal extents of two distinct trees are
disjoint. -/
theorem layout_trees_never_overlap (nodes : List FNode) (edges : List FEdge)
    (pos : String → Int × Int) (i j : Nat) (ti tj : List PlacedNode)
    (hij : i < j)
    (hi : (layoutTrees nodes edges pos).get? i = some ti)
    (hj : (layoutTrees nodes edges pos).get? j = some tj) :
    ∀ u ∈ ti, ∀ v ∈ tj, u.x + u.width < v.x := by
  unfold layoutTrees at hi hj
  exact placeTrees_disjoint pos (layoutForest nodes edges) 0 i j ti tj hij hi hj

/-- Witness for C7 at a concrete input: two single-node trees, the first
ending at x = 280, the second starting at x = 380. -/
theorem layout_trees_never_overlap_witness :
    ((0 : Nat) < 1) ∧
    (layoutTrees (pageNodes [mA, mD]) (pageReplyEdges [mA, mD]) posZero).get? 0
      = some [⟨⟨"a", "user"⟩, 0, -60, 280, 120⟩] ∧
    (layoutTrees (pageNodes [mA, mD]) (pageReplyEdges [mA, mD]) posZero).get? 1
      = some [⟨⟨"d", "user"⟩, 380, -60, 280, 120⟩] ∧
    ∀ u ∈ [(⟨⟨"a", "user"⟩, 0, -60, 280, 120⟩ : PlacedNode)],
      ∀ v ∈ [(⟨⟨"d", "user"⟩, 380, -60, 280, 120⟩ : PlacedNode)],
        u.x + u.width < v.x := by
  have h0 : (layoutTrees (pageNodes [mA, mD]) (pageReplyEdges [mA, mD]) posZero).get? 0
      = some [(⟨⟨"a", "user"⟩, 0, -60, 280, 120⟩ : PlacedNode)] := by decide
  have h1 : (layoutTrees (pageNodes [mA, mD]) (pageReplyEdges [mA, mD]) posZero).get? 1
      = some [(⟨⟨"d", "user"⟩, 380, -60, 280, 120⟩ : PlacedNode)] := by decide
  exact ⟨by decide, h0, h1,
    layout_trees_never_overlap (pageNodes [mA, mD]) (pageReplyEdges [mA, mD]) posZero
      0 1 _ _ (by decide) h0 h1⟩

/-! ## Claim C10: a remote `node_update` for an absent id is a no-op -/

/-- C10: applying a remote `node_update` event for an id that is not present
in the receiver's local node set leaves the node set unchanged — the update
does not create the node (so an update arriving after a delete does not
resurrect it). -/
theorem node_update_absent_id_noop (nds : List BNode) (nodeId : String)
    (changes : BChanges) (habs : nodeId ∉ nds.map (fun n => n.id)) :
    applyNodeUpdate nds nodeId changes = nds := by
  unfold applyNodeUpdate
  induction nds with
  | nil => rfl
  | cons n rest ih =>
    simp only [List.map_cons, List.mem_cons] at habs
    push_neg at habs
    simp only [List.map_cons]
    rw [if_neg (by simpa using (fun h => habs.1 h.symm)), ih habs.2]

/-- Witness for C10 at a concrete input: updating the absent id `"z"` leaves
a one-node state untouched. -/
theorem node_update_absent_id_noop_witness :
    ("z" ∉ ([⟨"blk", 1, 2, ⟨"feature", "t", "d", "draft"⟩⟩] : List BNode).map (fun n => n.id)) ∧
      applyNodeUpdate [⟨"blk", 1, 2, ⟨"feature", "t", "d", "draft"⟩⟩] "z"
        ⟨some (9, 9), none⟩ = [⟨"blk", 1, 2, ⟨"feature", "t", "d", "draft"⟩⟩] :=
  ⟨by decide,
    node_update_absent_id_noop [⟨"blk", 1, 2, ⟨"feature", "t", "d", "draft"⟩⟩] "z"
      ⟨some (9, 9), none⟩ (by decide)⟩

/-! ## Claim C9: a sync response merges additively -/

/-- C9: merging a received `bulk_update` (sync response) keeps every
pre-existing local entry unchanged at its position, and an entry of the merge
result is either a pre-existing local entry or an incoming entry whose id is
absent from the local state — for nodes and for edges alike. -/
theorem bulk_update_additive_merge (curN incN : List BNode) (curE incE : List BEdge) :
    (∀ i, i < curN.length → (mergeBulkNodes curN incN).get? i = curN.get? i) ∧
    (∀ n : BNode, n ∈ mergeBulkNodes curN incN ↔
      n ∈ curN ∨ (n ∈ incN ∧ n.id ∉ curN.map (fun c => c.id))) ∧
    (∀ i, i < curE.length → (mergeBulkEdges curE incE).get? i = curE.get? i) ∧
    (∀ e : BEdge, e ∈ mergeBulkEdges curE incE ↔
      e ∈ curE ∨ (e ∈ incE ∧ e.id ∉ curE.map (fun c => c.id))) := by
  refine ⟨?_, ?_, ?_, ?_⟩
  · intro i hi
    rcases curN with _ | ⟨c, cs⟩
    · simp at hi
    · have heq : mergeBulkNodes (c :: cs) incN
          = (c :: cs) ++ incN.filter (fun n => !(((c :: cs).map (fun x => x.id)).contains n.id)) :=
        rfl
      rw [heq]
      exact List.get?_append hi
  · intro n
    rcases curN with _ | ⟨c, cs⟩
    · simp [mergeBulkNodes]
    · simp [mergeBulkNodes, List.mem_filter, List.elem_iff, or_assoc]
  · intro i hi
    rcases curE with _ | ⟨c, cs⟩
    · simp at hi
    · have heq : mergeBulkEdges (c :: cs) incE
          = (c :: cs) ++ incE.filter (fun e => !(((c :: cs).map (fun x => x.id)).contains e.id)) :=
        rfl
      rw [heq]
      exact List.get?_append hi
  · intro e
    rcases curE with _ | ⟨c, cs⟩
    · simp [mergeBulkEdges]
    · simp [mergeBulkEdges, List.mem_filter, List.elem_iff, or_assoc]

/-- Witness for C9 at a concrete input: a sync response carrying a
conflicting copy of block `"blk"` and a new block `"new"` leaves the local
`"blk"` untouched and adds only `"new"`. -/
theorem bulk_update_additive_merge_witness :
    ((0 : Nat) < ([⟨"blk", 1, 2, ⟨"feature", "t", "d", "draft"⟩⟩] : List BNode).length ∧
      (mergeBulkNodes [⟨"blk", 1, 2, ⟨"feature", "t", "d", "draft"⟩⟩]
          [⟨"blk", 9, 9, ⟨"page", "stale", "x", "draft"⟩⟩,
            ⟨"new", 3, 4, ⟨"api", "n", "y", "draft"⟩⟩]).get? 0
        = some ⟨"blk", 1, 2, ⟨"feature", "t", "d", "draft"⟩⟩) ∧
    mergeBulkNodes [⟨"blk", 1, 2, ⟨"feature", "t", "d", "draft"⟩⟩]
        [⟨"blk", 9, 9, ⟨"page", "stale", "x", "draft"⟩⟩,
          ⟨"new", 3, 4, ⟨"api", "n", "y", "draft"⟩⟩]
      = [⟨"blk", 1, 2, ⟨"feature", "t", "d", "draft"⟩⟩,
          ⟨"new", 3, 4, ⟨"api", "n", "y", "draft"⟩⟩] := by
  refine ⟨⟨by decide, ?_⟩, by decide⟩
  have h := (bulk_update_additive_merge
    [⟨"blk", 1, 2, ⟨"feature", "t", "d", "draft"⟩⟩]
    [⟨"blk", 9, 9, ⟨"page", "stale", "x", "draft"⟩⟩,
      ⟨"new", 3, 4, ⟨"api", "n", "y", "draft"⟩⟩] [] []).1 0 (by decide)
  rw [h]; rfl

/-! ## Claim C8: the layout effect versus user-saved positions -/

/-- C8 (code_bug evidence): whenever the layout effect runs its
`needsLayout` branch, the rendered node positions feed nowhere into the
computation — the output is the same for every `priorNodes`, in particular
for the state where the user dragged `"m1"` to `(500, 500)` — and `"m1"`
comes out at the dagre-derived `(0, -60)`, not at its saved `(500, 500)`. -/
theorem layout_effect_discards_user_position :
    (∀ priorNodes : List PlacedNode,
      layoutEffectRun priorNodes c8msgs [] posZero true
        = layoutEffectRun [] c8msgs [] posZero true) ∧
    layoutEffectRun [⟨⟨"m1", "user"⟩, 500, 500, 280, 120⟩] c8msgs [] posZero true
      = [⟨⟨"m1", "user"⟩, 0, -60, 280, 120⟩] :=
  ⟨fun _ => rfl, by decide⟩

/-! ## Claim C1: exclusion predicate applied after the chronological sort -/

/-- C1 (aggregator-with-exclusion modelled from the spec, see
`getContextMessagesExcluding`): for every target node, reference list and
exclusion predicate, no excluded node appears in the returned sequence; the
predicate acts exactly as a final filter on the sorted aggregate, and an
absent predicate changes nothing. -/
theorem context_exclusion_enforced (msgs : List Msg) (nodeId : String)
    (branchRefs : List String) (p : String → Bool) :
    (∀ m ∈ getContextMessagesExcluding msgs nodeId branchRefs (some p), p m.id = false) ∧
    (getContextMessagesExcluding msgs nodeId branchRefs (some p)).Sorted createdLe ∧
    getContextMessagesExcluding msgs nodeId branchRefs (some p)
      = (getContextMessages msgs nodeId branchRefs).filter (fun m => !(p m.id)) ∧
    getContextMessagesExcluding msgs nodeId branchRefs none
      = getContextMessages msgs nodeId branchRefs := by
  refine ⟨?_, ?_, rfl, rfl⟩
  · intro m hm
    have := List.of_mem_filter hm
    simpa using this
  · exact List.Pairwise.filter _ (getContextMessages_sorted msgs nodeId branchRefs)

/-- Witness for C1 at a concrete input: excluding `"b"` removes it from the
context of `"c"` referencing `"e"`, and the theorem applies. -/
theorem context_exclusion_enforced_witness :
    ((getContextMessagesExcluding [mA, mB, mC, mD, mE] "c" ["e"]
        (some (fun i => i == "b"))).map (fun m => m.id) = ["a", "c", "d", "e"]) ∧
    (∀ m ∈ getContextMessagesExcluding [mA, mB, mC, mD, mE] "c" ["e"]
        (some (fun i => i == "b")), (fun i => i == "b") m.id = false) :=
  ⟨by decide,
    (context_exclusion_enforced [mA, mB, mC, mD, mE] "c" ["e"] (fun i => i == "b")).1⟩

/-! ## Sorting uniqueness and label stability (C5) -/

/-- Two sorted lists that are permutations of one another and whose
`created_at` keys are pairwise distinct are equal. -/
theorem sorted_perm_eq_of_distinct :
    ∀ (l₁ l₂ : List Msg), l₁.Perm l₂ →
      l₁.Pairwise (fun x y => x.created_at ≠ y.created_at) →
      l₁.Sorted createdLe → l₂.Sorted createdLe → l₁ = l₂ := by
  intro l₁
  induction l₁ with
  | nil =>
    intro l₂ hp _ _ _
    exact hp.nil_eq
  | cons a t ih =>
    intro l₂ hp hd hs1 hs2
    match l₂ with
    | [] => exact absurd hp.symm.nil_eq (by simp)
    | b :: t2 =>
      have hab : a = b := by
        by_contra hne
        have ha2 : a ∈ b :: t2 := hp.subset (List.mem_cons_self a t)
        have hb1 : b ∈ a :: t := hp.symm.subset (List.mem_cons_self b t2)
        have hat2 : a ∈ t2 := by
          rcases List.mem_cons.mp ha2 with h | h
          · exact absurd h hne
          · exact h
        have hbt : b ∈ t := by
          rcases List.mem_cons.mp hb1 with h | h
          · exact absurd h.symm hne
          · exact h
        have h1 : a.created_at ≤ b.created_at := List.rel_of_sorted_cons hs1 b hbt
        have h2 : b.created_at ≤ a.created_at := List.rel_of_sorted_cons hs2 a hat2
        have hne2 : a.created_at ≠ b.created_at := (List.pairwise_cons.mp hd).1 b hbt
        exact hne2 (Nat.le_antisymm h1 h2)
      subst hab
      have htp : t.Perm t2 := hp.cons_inv
      have := ih t2 htp (List.pairwise_cons.mp hd).2 hs1.of_cons hs2.of_cons
      rw [this]

/-- For message lists that are permutations with pairwise-distinct
timestamps, the sorted-children function of the label generator is
identical. -/
theorem childIdsOf_perm_eq (l₁ l₂ : List Msg) (hp : l₁.Perm l₂)
    (hd : l₁.Pairwise (fun x y => x.created_at ≠ y.created_at)) :
    childIdsOf l₁ = childIdsOf l₂ := by
  funext nodeId
  unfold childIdsOf
  congr 1
  have hfp : (l₁.filter (fun m => m.parent_id == some nodeId)).Perm
      (l₂.filter (fun m => m.parent_id == some nodeId)) := hp.filter _
  have hdf : (l₁.filter (fun m => m.parent_id == some nodeId)).Pairwise
      (fun x y => x.created_at ≠ y.created_at) :=
    hd.sublist (List.filter_sublist l₁)
  have hsp : ((l₁.filter (fun m => m.parent_id == some nodeId)).insertionSort
      createdLe).Perm
        ((l₂.filter (fun m => m.parent_id == some nodeId)).insertionSort createdLe) :=
    ((List.perm_insertionSort createdLe _).trans hfp).trans
      (List.perm_insertionSort createdLe _).symm
  have hds : ((l₁.filter (fun m => m.parent_id == some nodeId)).insertionSort
      createdLe).Pairwise (fun x y => x.created_at ≠ y.created_at) := by
    refine (List.Perm.pairwise_iff ?_ (List.perm_insertionSort createdLe _)).mpr hdf
    intro x y hxy
    exact hxy.symm
  exact sorted_perm_eq_of_distinct _ _ hsp hds
    (List.sorted_insertionSort createdLe _) (List.sorted_insertionSort createdLe _)

/-! ## Claim C5 (amended): label stability under permutations that keep the
root order -/

/-- C5 (amended): `generateShortLabels` produces identical maps on two
permutations of a node set with pairwise-distinct `createdAt`, provided the
roots appear in the same order — root letters follow input order, so that
proviso is exactly what the counterexample forces. -/
theorem generateShortLabels_perm_stable (l₁ l₂ : List Msg) (hp : l₁.Perm l₂)
    (hd : l₁.Pairwise (fun x y => x.created_at ≠ y.created_at))
    (hr : rootsOf l₁ = rootsOf l₂) :
    generateShortLabels l₁ = generateShortLabels l₂ := by
  unfold generateShortLabels
  rw [hp.length_eq, childIdsOf_perm_eq l₁ l₂ hp hd, hr]

/-- Witness for the amended C5 at a concrete input: moving a child around in
the input (roots staying in order) leaves all three maps unchanged. -/
theorem generateShortLabels_perm_stable_witness :
    ([mA, mD, mB] : List Msg).Perm [mA, mB, mD] ∧
    ([mA, mD, mB] : List Msg).Pairwise (fun x y => x.created_at ≠ y.created_at) ∧
    rootsOf [mA, mD, mB] = rootsOf [mA, mB, mD] ∧
    generateShortLabels [mA, mD, mB] = generateShortLabels [mA, mB, mD] :=
  ⟨by decide, by decide, by decide,
    generateShortLabels_perm_stable [mA, mD, mB] [mA, mB, mD] (by decide) (by decide)
      (by decide)⟩

/-! ## The parent walk as an orbit (infrastructure for C2 and C3) -/

/-- Once the walk runs off the model it stays off. -/
theorem iterAnc_none_add (msgs : List Msg) (a : String) {k : Nat}
    (h : iterAnc msgs a k = none) : ∀ j, iterAnc msgs a (k + j) = none := by
  intro j
  induction j with
  | zero => exact h
  | succ j ih => rw [← Nat.add_assoc, iterAnc, ih]; rfl

/-- Monotone version of `iterAnc_none_add`. -/
theorem iterAnc_none_of_le (msgs : List Msg) (a : String) {k k2 : Nat}
    (hk : k ≤ k2) (h : iterAnc msgs a k = none) : iterAnc msgs a k2 = none := by
  have := iterAnc_none_add msgs a h (k2 - k)
  rwa [Nat.add_sub_cancel' hk] at this

/-- Every node the walk visits is found again by looking up its own id: walk
elements are determined by their ids. -/
theorem iterAnc_lookup_self (msgs : List Msg) (a : String) :
    ∀ (k : Nat) (m : Msg), iterAnc msgs a k = some m → lookup msgs m.id = some m := by
  intro k
  induction k with
  | zero => intro m h; exact lookup_self h
  | succ k ih =>
    intro m h
    rw [iterAnc] at h
    rcases hk : iterAnc msgs a k with _ | m1
    · rw [hk] at h; exact absurd h (by simp)
    · rw [hk] at h
      rw [Option.some_bind] at h
      unfold parentStep at h
      rcases hp : m1.parent_id with _ | p
      · rw [hp] at h; exact absurd h (by simp)
      · rw [hp] at h; exact lookup_self h

/-- Two walk positions holding the same option value continue identically. -/
theorem iterAnc_shift (msgs : List Msg) (a : String) {i j : Nat}
    (h : iterAnc msgs a i = iterAnc msgs a j) :
    ∀ t, iterAnc msgs a (i + t) = iterAnc msgs a (j + t) := by
  intro t
  induction t with
  | zero => exact h
  | succ t ih => rw [← Nat.add_assoc, ← Nat.add_assoc, iterAnc, iterAnc, ih]

/-- Walk elements with equal ids are equal. -/
theorem iterAnc_eq_of_id_eq (msgs : List Msg) (a : String) {i j : Nat} {mi mj : Msg}
    (hi : iterAnc msgs a i = some mi) (hj : iterAnc msgs a j = some mj)
    (hid : mi.id = mj.id) : mi = mj := by
  have h1 := iterAnc_lookup_self msgs a i mi hi
  have h2 := iterAnc_lookup_self msgs a j mj hj
  rw [hid, h2] at h1
  exact (Option.some.injEq _ _ ▸ h1).symm ▸ rfl

/-- On a terminating walk all visited ids are distinct: a repeated id would
make the walk periodic, hence never `none`. -/
theorem iterAnc_distinct (msgs : List Msg) (a : String)
    (hterm : ∃ N, iterAnc msgs a N = none) {i j : Nat} {mi mj : Msg}
    (hij : i < j) (hi : iterAnc msgs a i = some mi) (hj : iterAnc msgs a j = some mj) :
    mi.id ≠ mj.id := by
  intro hid
  have heqm : mi = mj := iterAnc_eq_of_id_eq msgs a hi hj hid
  subst heqm
  have hopt : iterAnc msgs a i = iterAnc msgs a j := by rw [hi, hj]
  have hshift := iterAnc_shift msgs a hopt
  have hnever : ∀ t, iterAnc msgs a (i + t) ≠ none := by
    intro t
    induction t using Nat.strong_induction_on with
    | _ t ih =>
      by_cases hlt : t < j - i
      · intro hnone
        have : iterAnc msgs a j = none := by
          refine iterAnc_none_of_le msgs a ?_ hnone
          omega
        rw [hj] at this; exact absurd this (by simp)
      · have hjt : j + (t - (j - i)) = i + t := by omega
        have := hshift (t - (j - i))
        rw [hjt] at this
        intro hnone
        rw [hnone] at this
        exact ih (t - (j - i)) (by omega) this
  obtain ⟨N, hN⟩ := hterm
  by_cases hNi : N ≤ i
  · have := iterAnc_none_of_le msgs a hNi hN
    rw [hi] at this; exact absurd this (by simp)
  · have hrep : N = i + (N - i) := by omega
    exact hnever (N - i) (hrep ▸ hN)

/-- The orbit list has full length while the walk stays on the model. -/
theorem orbitList_length (msgs : List Msg) (a : String) :
    ∀ (d k : Nat), (∀ t, t < d → iterAnc msgs a (k + t) ≠ none) →
      (orbitList msgs a k d).length = d := by
  intro d
  induction d with
  | zero => intro k _; rfl
  | succ d ih =>
    intro k hsome
    rcases hk : iterAnc msgs a k with _ | m
    · exact absurd (by simpa using hk) (hsome 0 (by omega))
    · simp only [orbitList, hk, List.length_cons]
      rw [ih (k + 1) (fun t ht => by
        have h2 := hsome (t + 1) (by omega)
        have heq : k + (t + 1) = k + 1 + t := by omega
        rwa [heq] at h2)]

/-- Orbit members are walk values. -/
theorem orbitList_mem_iter (msgs : List Msg) (a : String) :
    ∀ (d k : Nat) (m : Msg), m ∈ orbitList msgs a k d →
      ∃ j, k ≤ j ∧ j < k + d ∧ iterAnc msgs a j = some m := by
  intro d
  induction d with
  | zero => intro k m hm; exact absurd hm (List.not_mem_nil m)
  | succ d ih =>
    intro k m hm
    rcases hk : iterAnc msgs a k with _ | m0
    · rw [orbitList, hk] at hm; exact absurd hm (List.not_mem_nil m)
    · rw [orbitList, hk] at hm
      rcases List.mem_cons.mp hm with h | h
      · exact ⟨k, le_refl k, by omega, h ▸ hk⟩
      · obtain ⟨j, hj1, hj2, hj3⟩ := ih (k + 1) m h
        exact ⟨j, by omega, by omega, hj3⟩

/-- Walk values in range appear on the orbit list. -/
theorem iter_mem_orbitList (msgs : List Msg) (a : String) :
    ∀ (d k j : Nat) (m : Msg), k ≤ j → j < k + d → iterAnc msgs a j = some m →
      m ∈ orbitList msgs a k d := by
  intro d
  induction d with
  | zero => intro k j m h1 h2; omega
  | succ d ih =>
    intro k j m h1 h2 hj
    rcases hk : iterAnc msgs a k with _ | m0
    · have : iterAnc msgs a j = none := iterAnc_none_of_le msgs a h1 hk
      rw [hj] at this; exact absurd this (by simp)
    · rw [orbitList, hk]
      by_cases hjk : j = k
      · subst hjk
        rw [hj] at hk
        injection hk with hk
        cases hk
        exact List.mem_cons_self _ _
      · exact List.mem_cons_of_mem _ (ih (k + 1) j m (by omega) (by omega) hj)

/-- On a terminating walk, the orbit ids are pairwise distinct. -/
theorem orbitList_ids_nodup (msgs : List Msg) (a : String)
    (hterm : ∃ N, iterAnc msgs a N = none) :
    ∀ (d k : Nat), ((orbitList msgs a k d).map Msg.id).Nodup := by
  intro d
  induction d with
  | zero => intro k; simp [orbitList]
  | succ d ih =>
    intro k
    rcases hk : iterAnc msgs a k with _ | m0
    · simp [orbitList, hk]
    · simp only [orbitList, hk, List.map_cons, List.nodup_cons]
      refine ⟨?_, ih (k + 1)⟩
      intro hmem
      obtain ⟨m, hm, hid⟩ := List.mem_map.mp hmem
      obtain ⟨j, hj1, _, hj3⟩ := orbitList_mem_iter msgs a d (k + 1) m hm
      exact iterAnc_distinct msgs a hterm (by omega) hk hj3 hid.symm

/-- Orbit members live in the model. -/
theorem orbitList_subset (msgs : List Msg) (a : String) :
    ∀ (d k : Nat) (m : Msg), m ∈ orbitList msgs a k d → m ∈ msgs := by
  intro d k m hm
  obtain ⟨j, _, _, hj⟩ := orbitList_mem_iter msgs a d k m hm
  exact lookup_mem (iterAnc_lookup_self msgs a j m hj)

/-- The walk hits `none` within `msgs.length` steps: the first-`none` index
is at most the model size. -/
theorem firstNone_le_length (msgs : List Msg) (a : String)
    (hterm : ∃ N, iterAnc msgs a N = none) :
    Nat.find hterm ≤ msgs.length := by
  set L := Nat.find hterm with hLdef
  have hsome : ∀ t, t < L → iterAnc msgs a (0 + t) ≠ none := by
    intro t ht
    simpa using Nat.find_min hterm ht
  have hlen : (orbitList msgs a 0 L).length = L := orbitList_length msgs a L 0 hsome
  have hnd : ((orbitList msgs a 0 L).map Msg.id).Nodup := orbitList_ids_nodup msgs a hterm L 0
  have hsub : ((orbitList msgs a 0 L).map Msg.id) ⊆ msgs.map Msg.id := by
    intro x hx
    obtain ⟨m, hm, hid⟩ := List.mem_map.mp hx
    exact hid ▸ List.mem_map_of_mem Msg.id (orbitList_subset msgs a L 0 m hm)
  have := (List.subperm_of_subset hnd hsub).length_le
  simpa [hlen] using this

/-- On a terminating walk with a fresh visited set and enough fuel, the
guarded ancestry walk from step `k` produces exactly the orbit. -/
theorem ancWalk_eq_orbit (msgs : List Msg) (a : String)
    (hterm : ∃ N, iterAnc msgs a N = none) :
    ∀ (d k fuel : Nat) (visited : List String), k + d = Nat.find hterm → d ≤ fuel →
      (∀ j m, k ≤ j → iterAnc msgs a j = some m → m.id ∉ visited) →
      (ancWalkAux msgs fuel visited (iterAnc msgs a k)).1 = orbitList msgs a k d := by
  intro d
  induction d with
  | zero =>
    intro k fuel visited hkd _ _
    have hk : iterAnc msgs a k = none := by
      have := Nat.find_spec hterm
      rwa [← hkd, Nat.add_zero] at this
    rw [hk]
    match fuel with
    | 0 => rfl
    | fuel + 1 => rfl
  | succ d ih =>
    intro k fuel visited hkd hfuel hfresh
    have hkL : k < Nat.find hterm := by omega
    rcases hk : iterAnc msgs a k with _ | m
    · exact absurd hk (Nat.find_min hterm hkL)
    · match fuel with
      | 0 => omega
      | fuel + 1 =>
        have hguard : m.id ∉ visited := hfresh k m (le_refl k) hk
        have hred : (ancWalkAux msgs (fuel + 1) visited (some m)).1
            = m :: (ancWalkAux msgs fuel (m.id :: visited) (parentStep msgs m)).1 := by
          simp [ancWalkAux, hguard]
        have hstep : parentStep msgs m = iterAnc msgs a (k + 1) := by
          rw [iterAnc, hk, Option.some_bind]
        rw [hred, hstep, ih (k + 1) fuel (m.id :: visited) (by omega) (by omega) ?_]
        · rw [orbitList, hk]
        · intro j m2 hj hm2
          intro hcon
          rcases List.mem_cons.mp hcon with h | h
          · exact iterAnc_distinct msgs a hterm (by omega) hk hm2 h.symm
          · exact hfresh j m2 (by omega) hm2 h

/-- One unfolding step of the guarded walk. -/
theorem ancWalk_cons (msgs : List Msg) (fuel : Nat) (visited : List String) (m : Msg)
    (h : m.id ∉ visited) :
    (ancWalkAux msgs (fuel + 1) visited (some m)).1
      = m :: (ancWalkAux msgs fuel (m.id :: visited) (parentStep msgs m)).1 := by
  simp [ancWalkAux, h]

/-! ## Claim C2 (amended): the cycle guard matches the ancestor chain
including the node itself -/

/-- C2 (amended): `wouldCreateCycle(a, b)` is true iff `b` lies on the walk
from `a` to its root *including `a` itself* (stated for terminating parent
chains, i.e. models satisfying §3's acyclicity); in particular
`wouldCreateCycle(a, a)` is true for any `a` present in the model — not
false as the claim stated — and referencing one's immediate parent returns
true. -/
theorem wouldCreateCircle_spec (msgs : List Msg) (a b : String) :
    (∀ m, lookup msgs a = some m → wouldCreateCircle msgs a a = true) ∧
    (∀ m p q, lookup msgs a = some m → m.parent_id = some p → lookup msgs p = some q →
      wouldCreateCircle msgs a p = true) ∧
    ((∃ N, iterAnc msgs a N = none) →
      (wouldCreateCircle msgs a b = true ↔ ∃ k m, iterAnc msgs a k = some m ∧ m.id = b)) := by
  have h1 : ∀ m, lookup msgs a = some m → wouldCreateCircle msgs a a = true := by
    intro m hm
    unfold wouldCreateCircle getAncestry
    rw [hm, ancWalk_cons msgs msgs.length [] m (List.not_mem_nil _)]
    rw [List.any_eq_true]
    exact ⟨m, List.mem_reverse.mpr (List.mem_cons_self _ _), by simp [lookup_id hm]⟩
  refine ⟨h1, ?_, ?_⟩
  · intro m p q hm hp hq
    by_cases hpm : p = m.id
    · rw [hpm, lookup_id hm]
      exact h1 m hm
    · unfold wouldCreateCircle getAncestry
      rw [hm, ancWalk_cons msgs msgs.length [] m (List.not_mem_nil _)]
      have hstep : parentStep msgs m = some q := by
        unfold parentStep
        rw [hp]
        exact hq
      have hlen : 0 < msgs.length :=
        List.length_pos.mpr (List.ne_nil_of_mem (lookup_mem hm))
      obtain ⟨len2, hlen2⟩ : ∃ l2, msgs.length = l2 + 1 := ⟨msgs.length - 1, by omega⟩
      rw [hstep, hlen2, ancWalk_cons msgs len2 [m.id] q
        (by simpa [lookup_id hq] using hpm)]
      rw [List.any_eq_true]
      refine ⟨q, List.mem_reverse.mpr ?_, by simp [lookup_id hq]⟩
      exact List.mem_cons_of_mem _ (List.mem_cons_self _ _)
  · intro hterm
    have hwalk : (ancWalkAux msgs (msgs.length + 1) [] (iterAnc msgs a 0)).1
        = orbitList msgs a 0 (Nat.find hterm) := by
      refine ancWalk_eq_orbit msgs a hterm (Nat.find hterm) 0 (msgs.length + 1) []
        (by omega) ?_ ?_
      · have := firstNone_le_length msgs a hterm
        omega
      · intro j m _ _ hc
        exact absurd hc (List.not_mem_nil _)
    unfold wouldCreateCircle getAncestry
    rw [show lookup msgs a = iterAnc msgs a 0 from rfl, hwalk]
    constructor
    · intro h
      obtain ⟨x, hx, hxb⟩ := List.any_eq_true.mp h
      obtain ⟨j, _, _, hj⟩ :=
        orbitList_mem_iter msgs a (Nat.find hterm) 0 x (List.mem_reverse.mp hx)
      exact ⟨j, x, hj, by simpa using hxb⟩
    · rintro ⟨k, m, hk, hid⟩
      have hkL : k < Nat.find hterm := by
        by_contra hge
        have hnone : iterAnc msgs a k = none :=
          iterAnc_none_of_le msgs a (Nat.le_of_not_lt hge) (Nat.find_spec hterm)
        rw [hk] at hnone
        exact absurd hnone (by simp)
      rw [List.any_eq_true]
      refine ⟨m, List.mem_reverse.mpr ?_, by simp [hid]⟩
      exact iter_mem_orbitList msgs a (Nat.find hterm) 0 k m (by omega) (by omega) hk

/-- Witness for the amended C2 at a concrete input: in the two-node chain
`a ← b`, the self-check on `b` is true, the immediate-parent check is true,
and the ancestor-chain characterisation holds. -/
theorem wouldCreateCircle_spec_witness :
    lookup [mA, mB] "b" = some mB ∧
    (∃ N, iterAnc [mA, mB] "b" N = none) ∧
    wouldCreateCircle [mA, mB] "b" "b" = true ∧
    wouldCreateCircle [mA, mB] "b" "a" = true ∧
    (wouldCreateCircle [mA, mB] "b" "a" = true ↔
      ∃ k m, iterAnc [mA, mB] "b" k = some m ∧ m.id = "a") :=
  ⟨by decide, ⟨2, by decide⟩,
    (wouldCreateCircle_spec [mA, mB] "b" "b").1 mB (by decide),
    (wouldCreateCircle_spec [mA, mB] "b" "a").2.1 mB "a" mA (by decide) (by decide)
      (by decide),
    (wouldCreateCircle_spec [mA, mB] "b" "a").2.2 ⟨2, by decide⟩⟩

/-- Multi-step version of a one-step timestamp decrease along the walk. -/
theorem iter_decrease (msgs : List Msg) (a : String)
    (hmono : ∀ k m m2, iterAnc msgs a k = some m → iterAnc msgs a (k + 1) = some m2 →
      m2.created_at < m.created_at) :
    ∀ (t i : Nat) (mi mj : Msg), iterAnc msgs a i = some mi →
      iterAnc msgs a (i + t + 1) = some mj → mj.created_at < mi.created_at := by
  intro t
  induction t with
  | zero => intro i mi mj hi hj; exact hmono i mi mj hi hj
  | succ t ih =>
    intro i mi mj hi hj
    rcases hmid : iterAnc msgs a (i + t + 1) with _ | mid
    · have : iterAnc msgs a (i + (t + 1) + 1) = none := by
        have heq : i + (t + 1) + 1 = (i + t + 1) + 1 := by omega
        rw [heq, iterAnc, hmid]
        rfl
      rw [hj] at this
      exact absurd this (by simp)
    · have h1 : mj.created_at < mid.created_at := by
        have heq : i + (t + 1) + 1 = (i + t + 1) + 1 := by omega
        exact hmono (i + t + 1) mid mj hmid (heq ▸ hj)
      exact lt_trans h1 (ih i mi mid hi hmid)

/-- With strictly decreasing timestamps up the chain, the orbit is strictly
decreasing in `created_at`. -/
theorem orbit_pairwise_gt (msgs : List Msg) (a : String)
    (hmono : ∀ k m m2, iterAnc msgs a k = some m → iterAnc msgs a (k + 1) = some m2 →
      m2.created_at < m.created_at) :
    ∀ (d k : Nat), (orbitList msgs a k d).Pairwise
      (fun x y => y.created_at < x.created_at) := by
  intro d
  induction d with
  | zero => intro k; simp [orbitList]
  | succ d ih =>
    intro k
    rcases hk : iterAnc msgs a k with _ | m
    · simp [orbitList, hk]
    · rw [orbitList, hk]
      refine List.pairwise_cons.mpr ⟨?_, ih (k + 1)⟩
      intro y hy
      obtain ⟨j, hj1, _, hj3⟩ := orbitList_mem_iter msgs a d (k + 1) y hy
      have hj3b : iterAnc msgs a (k + (j - k - 1) + 1) = some y := by
        have heq : k + (j - k - 1) + 1 = j := by omega
        rw [heq]
        exact hj3
      exact iter_decrease msgs a hmono (j - k - 1) k m y hk hj3b

/-- The last orbit element is the walk value just before the first `none`. -/
theorem orbitList_getLast (msgs : List Msg) (a : String) :
    ∀ (d k : Nat), 0 < d → (∀ t, t < d → iterAnc msgs a (k + t) ≠ none) →
      (orbitList msgs a k d).getLast? = iterAnc msgs a (k + d - 1) := by
  intro d
  induction d with
  | zero => intro k h; omega
  | succ d ih =>
    intro k _ hsome
    rcases hk : iterAnc msgs a k with _ | m
    · exact absurd (by simpa using hk) (hsome 0 (by omega))
    · rw [orbitList, hk]
      match d with
      | 0 => simp [orbitList, hk]
      | d + 1 =>
        have hsome2 : ∀ t, t < d + 1 → iterAnc msgs a (k + 1 + t) ≠ none := by
          intro t ht
          have h2 := hsome (t + 1) (by omega)
          have heq : k + (t + 1) = k + 1 + t := by omega
          rwa [heq] at h2
        have hlen := orbitList_length msgs a (d + 1) (k + 1) hsome2
        obtain ⟨x, xs, hxx⟩ : ∃ x xs, orbitList msgs a (k + 1) (d + 1) = x :: xs := by
          rcases horb : orbitList msgs a (k + 1) (d + 1) with _ | ⟨x, xs⟩
          · rw [horb] at hlen; simp at hlen
          · exact ⟨x, xs, rfl⟩
        rw [hxx, List.getLast?_cons_cons, ← hxx, ih (k + 1) (by omega) hsome2]
        congr 1
        omega

/-- A chronologically sorted, duplicate-free list is a fixed point of the
aggregator's final sort. -/
theorem insertionSort_eq_self_of_sorted_distinct (l : List Msg)
    (hs : l.Sorted createdLe)
    (hd : l.Pairwise (fun x y => x.created_at ≠ y.created_at)) :
    l.insertionSort createdLe = l := by
  refine sorted_perm_eq_of_distinct _ _ (List.perm_insertionSort createdLe l) ?_
    (List.sorted_insertionSort createdLe l) hs
  refine (List.Perm.pairwise_iff ?_ (List.perm_insertionSort createdLe l)).mpr hd
  intro x y hxy
  exact hxy.symm

/-! ## Claim C3 (amended): ancestry-only context runs root first to the
target, chronologically -/

/-- C3 (amended): for a node `n` present in the model whose parent chain
terminates and whose timestamps strictly decrease towards the root (children
are created after their parents, as the application guarantees),
`buildContext(n, [])` begins with the root of `n`'s tree (the chain node
with no surviving parent link), ends with `n` itself, and is sorted by
`createdAt`.  Without the timestamp hypothesis the chronological re-sort can
move the root off the front — see the counterexample. -/
theorem buildContext_no_refs_spec (msgs : List Msg) (n : String) (m0 : Msg)
    (hpresent : lookup msgs n = some m0)
    (hterm : ∃ N, iterAnc msgs n N = none)
    (hmono : ∀ k m m2, iterAnc msgs n k = some m → iterAnc msgs n (k + 1) = some m2 →
      m2.created_at < m.created_at) :
    (∃ r, (getContextMessages msgs n []).head? = some r ∧ parentStep msgs r = none ∧
        ∃ k, iterAnc msgs n k = some r) ∧
    (getContextMessages msgs n []).getLast? = some m0 ∧
    (getContextMessages msgs n []).Sorted createdLe := by
  have hL0 : 0 < Nat.find hterm := by
    rcases Nat.eq_zero_or_pos (Nat.find hterm) with h | h
    · have := Nat.find_spec hterm
      rw [h] at this
      rw [show iterAnc msgs n 0 = lookup msgs n from rfl, hpresent] at this
      exact absurd this (by simp)
    · exact h
  have hsome0 : ∀ t, t < Nat.find hterm → iterAnc msgs n (0 + t) ≠ none := by
    intro t ht
    simpa using Nat.find_min hterm ht
  have hwalk : (ancWalkAux msgs (msgs.length + 1) [] (iterAnc msgs n 0)).1
      = orbitList msgs n 0 (Nat.find hterm) := by
    refine ancWalk_eq_orbit msgs n hterm (Nat.find hterm) 0 (msgs.length + 1) []
      (by omega) ?_ ?_
    · have := firstNone_le_length msgs n hterm
      omega
    · intro j m _ _ hc
      exact absurd hc (List.not_mem_nil _)
  have hctx : getContextMessages msgs n []
      = ((orbitList msgs n 0 (Nat.find hterm)).reverse).insertionSort createdLe := by
    have hbase : getContextMessages msgs n []
        = ((ancWalkAux msgs (msgs.length + 1) [] (iterAnc msgs n 0)).1.reverse).insertionSort
          createdLe := rfl
    rw [hbase, hwalk]
  have hrevlt : ((orbitList msgs n 0 (Nat.find hterm)).reverse).Pairwise
      (fun x y => x.created_at < y.created_at) :=
    List.pairwise_reverse.mpr (orbit_pairwise_gt msgs n hmono (Nat.find hterm) 0)
  have hsorted : ((orbitList msgs n 0 (Nat.find hterm)).reverse).Sorted createdLe :=
    hrevlt.imp (fun h => le_of_lt h)
  have hdist : ((orbitList msgs n 0 (Nat.find hterm)).reverse).Pairwise
      (fun x y => x.created_at ≠ y.created_at) :=
    hrevlt.imp (fun h => Nat.ne_of_lt h)
  have hfix := insertionSort_eq_self_of_sorted_distinct _ hsorted hdist
  rw [hctx, hfix]
  refine ⟨?_, ?_, hsorted⟩
  · rcases hr : iterAnc msgs n (0 + Nat.find hterm - 1) with _ | r
    · exact absurd (by simpa using hr) (hsome0 (Nat.find hterm - 1) (by omega))
    · refine ⟨r, ?_, ?_, ⟨Nat.find hterm - 1, by simpa using hr⟩⟩
      · rw [List.head?_reverse]
        rw [orbitList_getLast msgs n (Nat.find hterm) 0 hL0 hsome0]
        exact hr
      · have hnone := Nat.find_spec hterm
        have heq : Nat.find hterm = (Nat.find hterm - 1) + 1 := by omega
        rw [heq, iterAnc] at hnone
        rw [show (0 + Nat.find hterm - 1) = Nat.find hterm - 1 by omega] at hr
        rw [hr, Option.some_bind] at hnone
        exact hnone
  · rw [List.getLast?_reverse]
    obtain ⟨d, hd⟩ : ∃ d, Nat.find hterm = d + 1 := ⟨Nat.find hterm - 1, by omega⟩
    rw [hd, orbitList, show iterAnc msgs n 0 = some m0 from hpresent]
    rfl

/-- Witness for the amended C3 at a concrete input: the chain `a ← b` with
timestamps 0 < 1; the context of `"b"` is `[mA, mB]`: root first, `"b"`
last, sorted. -/
theorem buildContext_no_refs_spec_witness :
    lookup [mA, mB] "b" = some mB ∧
    (∃ N, iterAnc [mA, mB] "b" N = none) ∧
    ((getContextMessages [mA, mB] "b" []).map (fun m => m.id) = ["a", "b"]) ∧
    (∃ r, (getContextMessages [mA, mB] "b" []).head? = some r ∧
        parentStep [mA, mB] r = none ∧ ∃ k, iterAnc [mA, mB] "b" k = some r) ∧
    (getContextMessages [mA, mB] "b" []).getLast? = some mB := by
  have hmono : ∀ k m m2, iterAnc [mA, mB] "b" k = some m →
      iterAnc [mA, mB] "b" (k + 1) = some m2 → m2.created_at < m.created_at := by
    intro k m m2 h1 h2
    match k with
    | 0 =>
      have hm : m = mB := by
        have : iterAnc [mA, mB] "b" 0 = some mB := by decide
        rw [this] at h1; injection h1 with h1; exact h1.symm
      have hm2 : m2 = mA := by
        have : iterAnc [mA, mB] "b" 1 = some mA := by decide
        rw [this] at h2; injection h2 with h2; exact h2.symm
      rw [hm, hm2]; decide
    | 1 =>
      have : iterAnc [mA, mB] "b" 2 = none := by decide
      rw [this] at h2
      exact absurd h2 (by simp)
    | k + 2 =>
      have h2none : iterAnc [mA, mB] "b" 2 = none := by decide
      have hnone : iterAnc [mA, mB] "b" (k + 2) = none :=
        iterAnc_none_of_le [mA, mB] "b" (by omega) h2none
      rw [hnone] at h1
      exact absurd h1 (by simp)
  have hmain := buildContext_no_refs_spec [mA, mB] "b" mB (by decide) ⟨2, by decide⟩ hmono
  exact ⟨by decide, ⟨2, by decide⟩, by decide, hmain.1, hmain.2.1⟩

/-! ## Orphan behaviour (infrastructure for C6) -/

/-- With duplicate-free ids, members are determined by their id. -/
theorem mem_id_unique {msgs : List Msg} (hnd : (msgs.map Msg.id).Nodup)
    {m1 m2 : Msg} (h1 : m1 ∈ msgs) (h2 : m2 ∈ msgs) (hid : m1.id = m2.id) :
    m1 = m2 :=
  List.inj_on_of_nodup_map hnd h1 h2 hid

/-- An association-list lookup of a key no entry carries is `none`. -/
theorem alistGet_eq_none {α : Type} {l : List (String × α)} {k : String}
    (h : ∀ kv ∈ l, kv.1 ≠ k) : alistGet l k = none := by
  unfold alistGet
  rw [List.find?_eq_none.mpr]
  · rfl
  · intro kv hkv
    simpa using h kv hkv

/-- Members of the sorted-children lists are children: their id belongs to a
message of the model whose parent is the queried id. -/
theorem childIdsOf_mem {msgs : List Msg} {q x : String}
    (hx : x ∈ childIdsOf msgs q) :
    ∃ m2 ∈ msgs, m2.id = x ∧ m2.parent_id = some q := by
  unfold childIdsOf at hx
  obtain ⟨m2, hm2, hid⟩ := List.mem_map.mp hx
  have hm2f : m2 ∈ msgs.filter (fun m => m.parent_id == some q) :=
    (List.perm_insertionSort createdLe _).subset hm2
  have hmem := List.mem_of_mem_filter hm2f
  have hp := List.of_mem_filter hm2f
  exact ⟨m2, hmem, hid, by simpa using hp⟩

/-- The label BFS never records an id that can only be enqueued as a child
of the missing parent: if `x` appears in no child list except possibly that
of `y`, and `y` itself appears in no child list, a queue free of both stays
free of both, and `x` never enters the label or tree-letter maps. -/
theorem bfsLabel_avoid (childIds : String → List String) (letter : String)
    (tI : Nat) (x y : String)
    (hcx : ∀ q, q ≠ y → x ∉ childIds q) (hcy : ∀ q, y ∉ childIds q) :
    ∀ (fuel : Nat) (queue visited : List String) (nodeIndex : Nat) (out : LabelsOut),
      x ∉ queue → y ∉ queue →
      (∀ kv ∈ out.labels, kv.1 ≠ x) → (∀ kv ∈ out.treeLabels, kv.1 ≠ x) →
      (∀ kv ∈ (bfsLabel childIds letter tI fuel queue visited nodeIndex out).labels,
          kv.1 ≠ x) ∧
        ∀ kv ∈ (bfsLabel childIds letter tI fuel queue visited nodeIndex out).treeLabels,
          kv.1 ≠ x := by
  intro fuel
  induction fuel with
  | zero => intro queue visited nodeIndex out _ _ hl ht; exact ⟨hl, ht⟩
  | succ fuel ih =>
    intro queue visited nodeIndex out hqx hqy hl ht
    match queue with
    | [] => exact ⟨hl, ht⟩
    | id :: queue =>
      have hidx : id ≠ x := fun h => hqx (h ▸ List.mem_cons_self _ _)
      have hidy : id ≠ y := fun h => hqy (h ▸ List.mem_cons_self _ _)
      have hqx2 : x ∉ queue := fun h => hqx (List.mem_cons_of_mem _ h)
      have hqy2 : y ∉ queue := fun h => hqy (List.mem_cons_of_mem _ h)
      by_cases hv : id ∈ visited
      · have hred : bfsLabel childIds letter tI (fuel + 1) (id :: queue) visited nodeIndex out
            = bfsLabel childIds letter tI fuel queue visited nodeIndex out := by
          simp [bfsLabel, hv]
        rw [hred]
        exact ih queue visited nodeIndex out hqx2 hqy2 hl ht
      · have hred : bfsLabel childIds letter tI (fuel + 1) (id :: queue) visited nodeIndex out
            = bfsLabel childIds letter tI fuel (queue ++ childIds id) (id :: visited)
                (nodeIndex + 1)
                { labels := out.labels ++ [(id, letter ++ toString nodeIndex)]
                  treeLabels := out.treeLabels ++ [(id, letter)]
                  treeIndices := out.treeIndices ++ [(id, tI)] } := by
          simp [bfsLabel, hv]
        rw [hred]
        refine ih _ (id :: visited) (nodeIndex + 1) _ ?_ ?_ ?_ ?_
        · intro h
          rcases List.mem_append.mp h with h | h
          · exact hqx2 h
          · exact hcx id hidy h
        · intro h
          rcases List.mem_append.mp h with h | h
          · exact hqy2 h
          · exact hcy id h
        · intro kv hkv
          rcases List.mem_append.mp hkv with h | h
          · exact hl kv h
          · rw [List.mem_singleton.mp h]
            exact hidx
        · intro kv hkv
          rcases List.mem_append.mp hkv with h | h
          · exact ht kv h
          · rw [List.mem_singleton.mp h]
            exact hidx

/-- The per-root loop keeps the avoided id out of the maps, provided no root
carries it. -/
theorem labelRoots_avoid (childIds : String → List String) (fuel : Nat) (x y : String)
    (hcx : ∀ q, q ≠ y → x ∉ childIds q) (hcy : ∀ q, y ∉ childIds q) :
    ∀ (roots : List Msg) (tI : Nat) (out : LabelsOut),
      (∀ r ∈ roots, r.id ≠ x ∧ r.id ≠ y) →
      (∀ kv ∈ out.labels, kv.1 ≠ x) → (∀ kv ∈ out.treeLabels, kv.1 ≠ x) →
      (∀ kv ∈ (labelRoots childIds fuel roots tI out).labels, kv.1 ≠ x) ∧
        ∀ kv ∈ (labelRoots childIds fuel roots tI out).treeLabels, kv.1 ≠ x := by
  intro roots
  induction roots with
  | nil => intro tI out _ hl ht; exact ⟨hl, ht⟩
  | cons r rs ih =>
    intro tI out hroots hl ht
    obtain ⟨hb1, hb2⟩ := bfsLabel_avoid childIds (letterOf tI) tI x y hcx hcy fuel
      [r.id] [] 1 out
      (by
        intro h
        exact (hroots r (List.mem_cons_self _ _)).1 (List.mem_singleton.mp h).symm)
      (by
        intro h
        exact (hroots r (List.mem_cons_self _ _)).2 (List.mem_singleton.mp h).symm)
      hl ht
    exact ih (tI + 1) _ (fun r2 h2 => hroots r2 (List.mem_cons_of_mem _ h2)) hb1 hb2

/-- Updating one key of an association list adds that binding and otherwise
keeps existing entries. -/
theorem alistSet_mem {α : Type} {k : String} {v : α} :
    ∀ {l : List (String × α)} {kv : String × α},
      kv ∈ alistSet k v l → kv = (k, v) ∨ kv ∈ l := by
  intro l
  induction l with
  | nil =>
    intro kv hkv
    exact Or.inl (List.mem_singleton.mp hkv)
  | cons hd tl ih =>
    intro kv hkv
    unfold alistSet at hkv
    by_cases hh : hd.1 == k
    · rw [if_pos hh] at hkv
      rcases List.mem_cons.mp hkv with h | h
      · exact Or.inl h
      · exact Or.inr (List.mem_cons_of_mem _ h)
    · rw [if_neg hh] at hkv
      rcases List.mem_cons.mp hkv with h | h
      · exact Or.inr (h ▸ List.mem_cons_self _ _)
      · rcases ih h with h2 | h2
        · exact Or.inl h2
        · exact Or.inr (List.mem_cons_of_mem _ h2)

/-- A successful association-list lookup returns the value of some entry. -/
theorem alistGet_mem {α : Type} {l : List (String × α)} {k : String} {v : α}
    (h : alistGet l k = some v) : ∃ kv ∈ l, kv.2 = v := by
  unfold alistGet at h
  rcases hf : l.find? (fun kv => kv.1 == k) with _ | kv
  · rw [hf] at h; exact absurd h (by simp)
  · rw [hf] at h
    exact ⟨kv, List.mem_of_find?_eq_some hf, Option.some.inj h⟩

/-- `assignToTree` never files a node with id `x` when `x` can only be the
target of a reply edge out of the absent id `y`: calls never happen on `x`
or `y`, so the tree lists never gain `x`. -/
theorem assignToTree_avoid (nodes : List FNode) (replyEdges : List FEdge) (x y : String)
    (hedge : ∀ e ∈ replyEdges, e.target = x → e.source = y)
    (hytgt : ∀ e ∈ replyEdges, e.target ≠ y) :
    ∀ (fuel : Nat) (nodeId treeId : String) (st : AssignSt),
      nodeId ≠ x → nodeId ≠ y →
      (∀ kv ∈ st.trees, ∀ nd ∈ kv.2, nd.id ≠ x) →
      ∀ kv ∈ (assignToTree nodes replyEdges fuel nodeId treeId st).trees,
        ∀ nd ∈ kv.2, nd.id ≠ x := by
  intro fuel
  induction fuel with
  | zero => intro nodeId treeId st _ _ hinv; exact hinv
  | succ fuel ih =>
    intro nodeId treeId st hnx hny hinv
    by_cases hguard : st.nodeToTree.any (fun kv => kv.1 == nodeId)
    · have hred : assignToTree nodes replyEdges (fuel + 1) nodeId treeId st = st := by
        simp [assignToTree, hguard]
      rw [hred]; exact hinv
    · have hfold : ∀ (l : List FEdge) (st2 : AssignSt),
          (∀ e ∈ l, e ∈ replyEdges ∧ e.source = nodeId) →
          (∀ kv ∈ st2.trees, ∀ nd ∈ kv.2, nd.id ≠ x) →
          ∀ kv ∈ (l.foldl
              (fun acc e => assignToTree nodes replyEdges fuel e.target treeId acc)
              st2).trees, ∀ nd ∈ kv.2, nd.id ≠ x := by
        intro l
        induction l with
        | nil => intro st2 _ hinv2; exact hinv2
        | cons e es ihl =>
          intro st2 hmem hinv2
          obtain ⟨hmem0, hsrc0⟩ := hmem e (List.mem_cons_self _ _)
          have htx : e.target ≠ x := by
            intro hc
            exact hny ((hedge e hmem0 hc) ▸ hsrc0.symm)
          have hty : e.target ≠ y := hytgt e hmem0
          exact ihl _ (fun e2 h2 => hmem e2 (List.mem_cons_of_mem _ h2))
            (ih e.target treeId st2 htx hty hinv2)
      rcases hfind : nodes.find? (fun n => n.id == nodeId) with _ | node
      · have hred : assignToTree nodes replyEdges (fuel + 1) nodeId treeId st
            = (replyEdges.filter (fun e => e.source == nodeId)).foldl
                (fun acc e => assignToTree nodes replyEdges fuel e.target treeId acc)
                { st with nodeToTree := st.nodeToTree ++ [(nodeId, treeId)] } := by
          simp [assignToTree, hguard, hfind]
        rw [hred]
        refine hfold _ _ ?_ hinv
        intro e he
        exact ⟨List.mem_of_mem_filter he, by simpa using List.of_mem_filter he⟩
      · have hnode : node.id = nodeId := by
          have := List.find?_some hfind
          simpa using this
        have hred : assignToTree nodes replyEdges (fuel + 1) nodeId treeId st
            = (replyEdges.filter (fun e => e.source == nodeId)).foldl
                (fun acc e => assignToTree nodes replyEdges fuel e.target treeId acc)
                { nodeToTree := st.nodeToTree ++ [(nodeId, treeId)]
                  trees := alistSet treeId
                    ((alistGet st.trees treeId).getD [] ++ [node]) st.trees } := by
          simp [assignToTree, hguard, hfind]
        rw [hred]
        refine hfold _ _ ?_ ?_
        · intro e he
          exact ⟨List.mem_of_mem_filter he, by simpa using List.of_mem_filter he⟩
        · intro kv hkv nd hnd
          rcases alistSet_mem hkv with h | h
          · rw [h] at hnd
            simp only at hnd
            rcases List.mem_append.mp hnd with h2 | h2
            · rcases hget : alistGet st.trees treeId with _ | v
              · rw [hget] at h2; simp at h2
              · rw [hget] at h2
                obtain ⟨kv0, hkv0, hv0⟩ := alistGet_mem hget
                exact hinv kv0 hkv0 nd (hv0 ▸ h2)
            · rw [List.mem_singleton.mp h2, hnode]
              exact hnx
          · exact hinv kv h nd hnd

/-- The root loop of the layout preserves the same guarantee. -/
theorem assignRoots_avoid (nodes : List FNode) (replyEdges : List FEdge) (x y : String)
    (hedge : ∀ e ∈ replyEdges, e.target = x → e.source = y)
    (hytgt : ∀ e ∈ replyEdges, e.target ≠ y) (fuel : Nat) :
    ∀ (roots : List FNode) (st : AssignSt),
      (∀ r ∈ roots, r.id ≠ x ∧ r.id ≠ y) →
      (∀ kv ∈ st.trees, ∀ nd ∈ kv.2, nd.id ≠ x) →
      ∀ kv ∈ (roots.foldl
          (fun st2 r => assignToTree nodes replyEdges fuel r.id r.id st2) st).trees,
        ∀ nd ∈ kv.2, nd.id ≠ x := by
  intro roots
  induction roots with
  | nil => intro st _ hinv; exact hinv
  | cons r rs ih =>
    intro st hroots hinv
    refine ih _ (fun r2 h2 => hroots r2 (List.mem_cons_of_mem _ h2)) ?_
    exact assignToTree_avoid nodes replyEdges x y hedge hytgt fuel r.id r.id st
      (hroots r (List.mem_cons_self _ _)).1 (hroots r (List.mem_cons_self _ _)).2 hinv

/-- Placed nodes come from the tree they were placed for. -/
theorem placeTree_node_mem (pos : String → Int × Int) (cX : Int) (ts : List FNode) :
    ∀ q ∈ (placeTree pos cX ts).1, q.node ∈ ts := by
  match ts with
  | [] => intro q hq; exact absurd hq (List.not_mem_nil q)
  | n0 :: rest =>
    intro q hq
    simp only [placeTree, List.mem_map] at hq
    obtain ⟨n, hn, hq⟩ := hq
    rw [← hq]
    exact hn

/-- Every placed tree originates from one of the input trees. -/
theorem placeTrees_node_mem (pos : String → Int × Int) :
    ∀ (trees : List (List FNode)) (cX : Int) (tl : List PlacedNode),
      tl ∈ placeTrees pos trees cX → ∃ ts ∈ trees, ∀ q ∈ tl, q.node ∈ ts := by
  intro trees
  induction trees with
  | nil => intro cX tl h; simp [placeTrees] at h
  | cons ts rest ih =>
    intro cX tl h
    rw [placeTrees] at h
    rcases List.mem_cons.mp h with h | h
    · exact ⟨ts, List.mem_cons_self _ _, h ▸ placeTree_node_mem pos cX ts⟩
    · obtain ⟨ts2, hts2, hq⟩ := ih _ tl h
      exact ⟨ts2, List.mem_cons_of_mem _ hts2, hq⟩

/-- Characterisation of the reply edges the flow page builds. -/
theorem mem_pageReplyEdges {msgs : List Msg} {e : FEdge} :
    e ∈ pageReplyEdges msgs ↔
      ∃ m2 ∈ msgs, ∃ q, m2.parent_id = some q ∧ e = ⟨q, m2.id, "reply"⟩ := by
  unfold pageReplyEdges
  rw [List.mem_filterMap]
  constructor
  · rintro ⟨m2, hm2, hf⟩
    rcases hq : m2.parent_id with _ | q
    · rw [hq] at hf; exact absurd hf (by simp)
    · rw [hq] at hf
      exact ⟨m2, hm2, q, hq, (Option.some.inj hf).symm⟩
  · rintro ⟨m2, hm2, q, hq, he⟩
    exact ⟨m2, hm2, by rw [hq, he]; rfl⟩

/-- The layout's reply filter strips the reference edges and keeps exactly
the page's reply edges. -/
theorem replyEdges_filter (msgs : List Msg) (refs : List (String × String)) :
    (pageReplyEdges msgs ++ pageRefEdges refs).filter (fun e => e.type == "reply")
      = pageReplyEdges msgs := by
  rw [List.filter_append]
  have h1 : (pageReplyEdges msgs).filter (fun e => e.type == "reply")
      = pageReplyEdges msgs := by
    rw [List.filter_eq_self]
    intro e he
    obtain ⟨m2, _, q, _, he2⟩ := mem_pageReplyEdges.mp he
    rw [he2]
    rfl
  have h2 : (pageRefEdges refs).filter (fun e => e.type == "reply") = [] := by
    rw [List.filter_eq_nil]
    intro e he
    obtain ⟨r, _, he2⟩ := List.mem_map.mp he
    rw [← he2]
    simp
  rw [h1, h2, List.append_nil]

/-! ## Claim C6 (amended): an orphaned parent reference degrades by dropping
the node from labels and layout -/

/-- C6 (amended): a node whose `parentId` refers to an id absent from the
node set does not fail the load, but it is *not* treated as a root: the
label generator assigns it no short label and no tree letter (it is neither
a root nor anyone's reachable child), and the layout engine omits it from
its output for every dagre placement and reference-edge set (its incoming
reply edge from the ghost id keeps it out of the root set, and the ghost is
never assigned to a tree). -/
theorem orphan_degrades_by_dropping (msgs : List Msg) (m : Msg) (p : String)
    (hnd : (msgs.map Msg.id).Nodup) (hm : m ∈ msgs)
    (hpar : m.parent_id = some p) (hgh : p ∉ msgs.map Msg.id) :
    alistGet (generateShortLabels msgs).labels m.id = none ∧
    alistGet (generateShortLabels msgs).treeLabels m.id = none ∧
    ∀ (refs : List (String × String)) (pos : String → Int × Int),
      ∀ pn ∈ getLayoutedElements (pageNodes msgs)
          (pageReplyEdges msgs ++ pageRefEdges refs) pos,
        pn.node.id ≠ m.id := by
  have hcx : ∀ q, q ≠ p → m.id ∉ childIdsOf msgs q := by
    intro q hq hmem
    obtain ⟨m2, hm2, hid, hp2⟩ := childIdsOf_mem hmem
    have : m2 = m := mem_id_unique hnd hm2 hm hid
    rw [this, hpar] at hp2
    exact hq (Option.some.inj hp2).symm
  have hcy : ∀ q, p ∉ childIdsOf msgs q := by
    intro q hmem
    obtain ⟨m2, hm2, hid, _⟩ := childIdsOf_mem hmem
    exact hgh (hid ▸ List.mem_map_of_mem Msg.id hm2)
  have hroots : ∀ r ∈ rootsOf msgs, r.id ≠ m.id ∧ r.id ≠ p := by
    intro r hr
    have hrm := List.mem_of_mem_filter hr
    have hrp : r.parent_id = none := by simpa using List.of_mem_filter hr
    constructor
    · intro hid
      have : r = m := mem_id_unique hnd hrm hm hid
      rw [this, hpar] at hrp
      exact absurd hrp (by simp)
    · intro hid
      exact hgh (hid ▸ List.mem_map_of_mem Msg.id hrm)
  obtain ⟨hlab, htl⟩ := labelRoots_avoid (childIdsOf msgs)
    ((msgs.length + 1) * (msgs.length + 1)) m.id p hcx hcy (rootsOf msgs) 0
    ⟨[], [], []⟩ hroots (by intro kv h; exact absurd h (List.not_mem_nil kv))
    (by intro kv h; exact absurd h (List.not_mem_nil kv))
  refine ⟨alistGet_eq_none hlab, alistGet_eq_none htl, ?_⟩
  intro refs pos pn hpn
  have hedge : ∀ e ∈ pageReplyEdges msgs, e.target = m.id → e.source = p := by
    intro e he htgt
    obtain ⟨m2, hm2, q, hq, he2⟩ := mem_pageReplyEdges.mp he
    rw [he2] at htgt
    simp only at htgt
    have : m2 = m := mem_id_unique hnd hm2 hm htgt
    rw [this, hpar] at hq
    rw [he2]
    exact (Option.some.inj hq).symm
  have hytgt : ∀ e ∈ pageReplyEdges msgs, e.target ≠ p := by
    intro e he
    obtain ⟨m2, hm2, q, _, he2⟩ := mem_pageReplyEdges.mp he
    rw [he2]
    intro hc
    exact hgh (hc ▸ List.mem_map_of_mem Msg.id hm2)
  have hforest : ∀ ts ∈ layoutForest (pageNodes msgs)
      (pageReplyEdges msgs ++ pageRefEdges refs), ∀ nd ∈ ts, nd.id ≠ m.id := by
    intro ts hts nd hndm
    unfold layoutForest at hts
    rw [replyEdges_filter msgs refs] at hts
    obtain ⟨kv, hkv, hts2⟩ := List.mem_map.mp hts
    have hrootsF : ∀ r ∈ (pageNodes msgs).filter
        (fun n => !(((pageReplyEdges msgs).map (fun e => e.target)).contains n.id)),
        r.id ≠ m.id ∧ r.id ≠ p := by
      intro r hr
      have hrm := List.mem_of_mem_filter hr
      have hrf := List.of_mem_filter hr
      obtain ⟨m2, hm2, hr2⟩ := List.mem_map.mp hrm
      constructor
      · intro hid
        have htgt : m.id ∈ (pageReplyEdges msgs).map (fun e => e.target) := by
          refine List.mem_map.mpr ⟨⟨p, m.id, "reply"⟩, ?_, rfl⟩
          exact mem_pageReplyEdges.mpr ⟨m, hm, p, hpar, rfl⟩
        have hrf2 : ((pageReplyEdges msgs).map (fun e => e.target)).contains r.id
            = false := by
          simpa using List.of_mem_filter hr
        rw [hid] at hrf2
        have hcontains : ((pageReplyEdges msgs).map (fun e => e.target)).contains m.id
            = true := by
          simpa [List.elem_iff] using htgt
        rw [hcontains] at hrf2
        exact absurd hrf2 (by simp)
      · intro hid
        refine hgh ?_
        rw [← hr2] at hid
        have hid2 : m2.id = p := hid
        exact hid2 ▸ List.mem_map_of_mem Msg.id hm2
    have := assignRoots_avoid (pageNodes msgs) (pageReplyEdges msgs) m.id p hedge hytgt
      ((pageNodes msgs).length + (pageReplyEdges msgs ++ pageRefEdges refs).length + 2)
      ((pageNodes msgs).filter
        (fun n => !(((pageReplyEdges msgs).map (fun e => e.target)).contains n.id)))
      ⟨[], []⟩ hrootsF (by intro kv h; exact absurd h (List.not_mem_nil kv))
    exact this kv hkv nd (hts2 ▸ hndm)
  unfold getLayoutedElements layoutTrees at hpn
  obtain ⟨tl, htl2, hpn2⟩ := List.mem_flatten.mp hpn
  obtain ⟨ts, hts, hq⟩ := placeTrees_node_mem pos _ 0 tl htl2
  exact hforest ts hts pn.node (hq pn hpn2)

/-- Witness for the amended C6 at a concrete input: the orphan `"o"`
(parent `"ghost"`) gets no label, no tree letter, and no layout position. -/
theorem orphan_degrades_by_dropping_witness :
    (([mA, mOrphan].map Msg.id).Nodup ∧ mOrphan ∈ [mA, mOrphan] ∧
      mOrphan.parent_id = some "ghost" ∧ "ghost" ∉ [mA, mOrphan].map Msg.id) ∧
    alistGet (generateShortLabels [mA, mOrphan]).labels "o" = none ∧
    alistGet (generateShortLabels [mA, mOrphan]).treeLabels "o" = none ∧
    ∀ pn ∈ getLayoutedElements (pageNodes [mA, mOrphan])
        (pageReplyEdges [mA, mOrphan] ++ pageRefEdges []) posZero,
      pn.node.id ≠ "o" := by
  have h := orphan_degrades_by_dropping [mA, mOrphan] mOrphan "ghost"
    (by decide) (by decide) (by decide) (by decide)
  exact ⟨⟨by decide, by decide, by decide, by decide⟩, h.1, h.2.1, h.2.2 [] posZero⟩

/-! ## Counterexamples -/

/-- Counterexample to C2 as stated: the claim says `wouldCreateCycle(a, a)`
is false because a node is not its own ancestor; on the code, for a node
present in the model, the ancestry chain starts with the node itself, so the
call returns true. -/
theorem wouldCreateCircle_self_counterexample :
    wouldCreateCircle [mA] "a" "a" = true := by decide

/-- Counterexample to C3 as stated: with a root created after its child,
`buildContext(n, [])` neither begins with the root nor ends with `n` — the
final chronological sort reorders the ancestry chain. -/
theorem buildContext_root_first_counterexample :
    (getContextMessages [mLateRoot, mEarlyChild] "x2" []).map (fun m => m.id)
      = ["x2", "x1"] ∧
    ((getContextMessages [mLateRoot, mEarlyChild] "x2" []).head?.map (fun m => m.id)
      ≠ some "x1") := by
  constructor
  · decide
  · decide

/-- Counterexample to C5 as stated: two single-node trees with distinct
`createdAt`, permuted; the label, tree-letter and tree-index maps all change
because letters are assigned in root *input* order. -/
theorem generateShortLabels_perm_counterexample :
    ([mA, mD] : List Msg).Perm [mD, mA] ∧
    ([mA, mD] : List Msg).Pairwise (fun x y => x.created_at ≠ y.created_at) ∧
    alistGet (generateShortLabels [mA, mD]).labels "a" = some "A1" ∧
    alistGet (generateShortLabels [mD, mA]).labels "a" = some "B1" ∧
    generateShortLabels [mA, mD] ≠ generateShortLabels [mD, mA] := by
  refine ⟨?_, ?_, ?_, ?_, ?_⟩ <;> decide

/-- Counterexample to C6 as stated: a node whose `parentId` is absent from
the node set is *not* treated as a root — the label generator assigns it no
short label and the layout engine omits it from its output (while the rest
of the load proceeds). -/
theorem orphan_not_treated_as_root_counterexample :
    alistGet (generateShortLabels [mA, mOrphan]).labels "o" = none ∧
    alistGet (generateShortLabels [mA, mOrphan]).treeLabels "o" = none ∧
    ((getLayoutedElements (pageNodes [mA, mOrphan]) (pageReplyEdges [mA, mOrphan])
        posZero).map (fun pn => pn.node.id) = ["a"]) := by
  refine ⟨?_, ?_, ?_⟩ <;> decide

end Nested

